import Mathlib

/-!
samza-metrics-collector: name derivation and registry reconciliation.

A shallow embedding of `recordMetrics` (src/main.go, lines 32-70) and of the
sequence of `recordMetrics` calls issued by `consumeMetricsStream`
(lines 88-100), followed by theorems about the derived metric names and the
registry.

Modelling conventions.

* Go strings that reach `recordMetrics` come out of `encoding/json`, which
  yields valid UTF-8; they are Lean `String`s, and "length in characters" is
  `String.length` (the number of runes).
* A Go map is an association list.  The order of the list is the order in which
  `range` happens to visit the map; theorems quantify over every list, hence
  over every visiting order.
* `float64` values are only stored, never computed on: the value type `F` is
  arbitrary, and `json.Number.Float64` is a parameter
  `float64 : String → Option F` (`none` is a conversion error).
* A `prometheus.Gauge` is a heap object; a handle is its allocation index in
  `State.gauges`.
* `promauto.NewGauge` registers the new gauge with the exporter's default
  registerer and panics when that refuses the name.  The registerer is a
  collaborator outside the source: the names it holds are the field
  `State.registered`, and the grammar of the names it accepts, which depends on
  the library version, is a parameter `accepts : String → Bool`.
* `log.Fatal` and a panic end the process: `Outcome.fatal` carries the state
  reached.
-/

namespace SamzaMetricsCollector

/-! ## Data model (main.go, lines 16-30) -/

/-- The `Header` struct of a `MetricsReport`. -/
structure Header where
  JobID : String
  ExecEnvContainerID : String
  SamzaVersion : String
  JobName : String
  Host : String
  ResetTime : Int
  ContainerName : String
  Source : String
  Time : Int
  Version : String
deriving DecidableEq

/-- A decoded `interface{}` metric value under `Decoder.UseNumber`: a
`json.Number` keeps its text; the contents of strings, arrays and objects are
never inspected by the program. -/
inductive JsonValue where
  | number (text : String)
  | bool (b : Bool)
  | str (s : String)
  | null
  | array
  | object
deriving DecidableEq

/-- The `MetricsReport` struct: `Metrics` is the two-level map
group → metric name → value, in visiting order. -/
structure MetricsReport where
  Header : Header
  Metrics : List (String × List (String × JsonValue))

/-- A header with the four fields the reconciler reads; the informational
fields are left empty. -/
def mkHeader (jobName jobID containerName source : String) : Header :=
  { JobID := jobID, ExecEnvContainerID := "", SamzaVersion := "", JobName := jobName,
    Host := "", ResetTime := 0, ContainerName := containerName, Source := source,
    Time := 0, Version := "" }

/-! ## Name derivation (main.go, lines 33-45) -/

/-- The format `"%s_%s"` of `fmt.Sprintf`. -/
def Sprintf2 (a b : String) : String := a ++ "_" ++ b

/-- The format `"%s_%s_%s"` of `fmt.Sprintf`. -/
def Sprintf3 (a b c : String) : String := a ++ "_" ++ b ++ "_" ++ c

/-- Lines 33-36: the local `prefix` of `recordMetrics`. -/
def namePfx (h : Header) : String :=
  let p := Sprintf3 h.JobName h.JobID h.ContainerName
  if h.ContainerName ≠ h.Source then Sprintf2 p h.Source else p

/-- Membership in the character set `a-zA-Z0-9_`. -/
def inClass (c : Char) : Bool :=
  ('a' ≤ c && c ≤ 'z') || ('A' ≤ c && c ≤ 'Z') || ('0' ≤ c && c ≤ '9') || c == '_'

/-- The compiled regular expression `[^a-zA-Z0-9_]`: it matches exactly one
character, any one outside the set (newline included). -/
def regexMatch (c : Char) : Bool := !inClass c

/-- The method `regex.ReplaceAllString(src, repl)` for the one-character
expression above and a replacement without `$`: scanning left to right, every
match is replaced by `repl`, every other character is copied. -/
def ReplaceAllString (src repl : String) : String :=
  ⟨src.data.flatMap fun c => if regexMatch c then repl.data else [c]⟩

/-- Lines 40-45: the local `fqn` of the loop body.  The pattern is a constant
that compiles, so the `log.Fatal(err)` branch of line 44 is never taken. -/
def fqnOf (pfx group metricName : String) : String :=
  ReplaceAllString (Sprintf3 pfx group metricName) "_"

/-! ## Registry reconciliation (main.go, lines 47-67) -/

/-- A gauge object: the name given in `GaugeOpts` and the current value. -/
structure Gauge (F : Type) where
  Name : String
  value : F

/-- A `prometheus.Metric` interface value held by the registry: either a
`prometheus.Gauge` (by handle) or a metric of some other kind. -/
inductive Metric where
  | gauge (handle : Nat)
  | other (handle : Nat)
deriving DecidableEq

/-- The process state `recordMetrics` acts on: the map `metricsRegistry`, the
gauge objects allocated so far, what was printed to standard output, and the
names held by the exporter's default registerer. -/
structure State (F : Type) where
  metricsRegistry : List (String × Metric)
  gauges : List (Gauge F)
  stdout : List String
  registered : List String

/-- Why the process was ended: `log.Fatal` on a conversion error (line 51),
`log.Fatal` on a change of kind (line 58), or the panic of `promauto.NewGauge`
on a name the registerer refuses (line 61). -/
inductive Fatal where
  | conversion (text : String)
  | typeSwitch
  | registration (name : String)
deriving DecidableEq

/-- Result of running a piece of `recordMetrics`. -/
inductive Outcome (F : Type) where
  | done (σ : State F)
  | fatal (cause : Fatal) (σ : State F)

/-- The state an outcome ends in. -/
def Outcome.state {F : Type} : Outcome F → State F
  | .done σ => σ
  | .fatal _ σ => σ

/-- Line 88: the empty registry the consumer starts with; `held` are the names
the default registerer holds before the program registers anything. -/
def State.init {F : Type} (held : List String) : State F := ⟨[], [], [], held⟩

/-- The map read `metricsRegistry[name]` with its `found` flag. -/
def lookup (name : String) : List (String × Metric) → Option Metric
  | [] => none
  | (k, m) :: rest => if k = name then some m else lookup name rest

/-- The call `promauto.NewGauge(prometheus.GaugeOpts{Name: name})`: when the
registerer accepts the name and does not hold it yet, a fresh gauge object
holding zero is registered and its handle returned with the new state;
otherwise the call panics (`none`). -/
def NewGauge {F : Type} [Zero F] (accepts : String → Bool) (name : String) (σ : State F) :
    Option (Nat × State F) :=
  if accepts name = true ∧ name ∉ σ.registered then
    some (σ.gauges.length,
      { σ with gauges := σ.gauges ++ [⟨name, 0⟩], registered := name :: σ.registered })
  else none

/-- Overwriting the value of the gauge object at index `h` of the heap. -/
def setValue {F : Type} (fval : F) : Nat → List (Gauge F) → List (Gauge F)
  | _, [] => []
  | 0, g :: rest => { g with value := fval } :: rest
  | h + 1, g :: rest => g :: setValue fval h rest

/-- The call `gauge.Set(fval)` on the gauge object with handle `h`. -/
def gaugeSet {F : Type} (h : Nat) (fval : F) (σ : State F) : State F :=
  { σ with gauges := setValue fval h σ.gauges }

/-- Line 66: the text written by `fmt.Printf` for a boolean metric. -/
def boolLine (fqn : String) (b : Bool) : String :=
  "Won\x27t report bool metric: " ++ fqn ++ " - " ++ (if b then "true" else "false")

/-- Lines 47-67: the type switch on `val`, for the name `fqn`. -/
def reconcile {F : Type} [Zero F] (float64 : String → Option F) (accepts : String → Bool)
    (fqn : String) (val : JsonValue) (σ : State F) : Outcome F :=
  match val with
  | .number text =>
    match float64 text with
    | none => .fatal (.conversion text) σ
    | some fval =>
      match lookup fqn σ.metricsRegistry with
      | some (.gauge g) => .done (gaugeSet g fval σ)
      | some (.other _) => .fatal .typeSwitch σ
      | none =>
        match NewGauge accepts fqn σ with
        | none => .fatal (.registration fqn) σ
        | some (gauge, σ1) =>
          let σ2 := { σ1 with metricsRegistry := (fqn, .gauge gauge) :: σ1.metricsRegistry }
          .done (gaugeSet gauge fval σ2)
  | .bool b => .done { σ with stdout := σ.stdout ++ [boolLine fqn b] }
  | _ => .done σ

/-- Lines 39-68: the inner loop over one group's metrics. -/
def rangeMetrics {F : Type} [Zero F] (float64 : String → Option F)
    (accepts : String → Bool) (pfx group : String) :
    List (String × JsonValue) → State F → Outcome F
  | [], σ => .done σ
  | (metricName, val) :: rest, σ =>
    match reconcile float64 accepts (fqnOf pfx group metricName) val σ with
    | .done σ1 => rangeMetrics float64 accepts pfx group rest σ1
    | .fatal c σ1 => .fatal c σ1

/-- Lines 38-69: the outer loop over the groups. -/
def rangeGroups {F : Type} [Zero F] (float64 : String → Option F)
    (accepts : String → Bool) (pfx : String) :
    List (String × List (String × JsonValue)) → State F → Outcome F
  | [], σ => .done σ
  | (group, metrics) :: rest, σ =>
    match rangeMetrics float64 accepts pfx group metrics σ with
    | .done σ1 => rangeGroups float64 accepts pfx rest σ1
    | .fatal c σ1 => .fatal c σ1

/-- Lines 32-70: `recordMetrics`. -/
def recordMetrics {F : Type} [Zero F] (float64 : String → Option F)
    (accepts : String → Bool) (mr : MetricsReport)
    (σ : State F) : Outcome F :=
  rangeGroups float64 accepts (namePfx mr.Header) mr.Metrics σ

/-- Lines 90-100: the successive `recordMetrics` calls of the consumer loop on
the decoded reports, in arrival order, all on the one registry. -/
def recordAll {F : Type} [Zero F] (float64 : String → Option F)
    (accepts : String → Bool) :
    List MetricsReport → State F → Outcome F
  | [], σ => .done σ
  | mr :: rest, σ =>
    match recordMetrics float64 accepts mr σ with
    | .done σ1 => recordAll float64 accepts rest σ1
    | .fatal c σ1 => .fatal c σ1

/-! ## Observations on a state -/

/-- The value a scrape reads under `name`: that of the gauge the name is bound
to. -/
def valueOf {F : Type} (σ : State F) (name : String) : Option F :=
  match lookup name σ.metricsRegistry with
  | some (.gauge g) => (σ.gauges[g]?).map Gauge.value
  | _ => none

/-- The names of the registry, in map order. -/
def names {F : Type} (σ : State F) : List String := σ.metricsRegistry.map Prod.fst

/-! ## Vocabulary of the specification -/

/-- The per-character replacement of the specification: a character of
`[A-Za-z0-9_]` is kept, any other becomes an underscore. -/
def sanitizeChar (c : Char) : Char := if inClass c then c else '_'

/-- The sanitizer of the specification, character by character. -/
def sanitize (s : String) : String := ⟨s.data.map sanitizeChar⟩

/-- ASCII letter or digit. -/
def alnum (c : Char) : Bool :=
  ('a' ≤ c && c ≤ 'z') || ('A' ≤ c && c ≤ 'Z') || ('0' ≤ c && c ≤ '9')

/-- Every character of the name is an ASCII letter, a digit or an underscore. -/
def inAlphabet (s : String) : Prop := ∀ c ∈ s.data, inClass c = true

/-- ASCII digit. -/
def isDigit (c : Char) : Bool := '0' ≤ c && c ≤ '9'

/-- A name the scrape exporter accepts, in the words of the specification:
non-empty, over the alphabet, not beginning with a digit. -/
def scrapeSafe (s : String) : Bool :=
  match s.data with
  | [] => false
  | c :: _ => s.data.all inClass && !isDigit c

/-- A conversion used to run the scenarios: a string of decimal digits
converts to the integer it denotes, anything else is a conversion error.  It
is evaluated only at 5, 6, 7 and 8 and at `1e999`, which is out of the range
of `float64` and a conversion error for `json.Number.Float64` too. -/
def digitsFloat64 (s : String) : Option Int :=
  if s.data = [] then none
  else s.data.foldl
    (fun acc c => acc.bind fun n =>
      if '0' ≤ c ∧ c ≤ '9' then some (n * 10 + ((c.toNat : Int) - 48)) else none)
    (some 0)

/-- The registerer's name grammar in the library versions that validate names
the classic way: `[a-zA-Z_:][a-zA-Z0-9_:]*`. -/
def classicName (s : String) : Bool :=
  match s.data with
  | [] => false
  | c :: rest =>
    (('a' ≤ c && c ≤ 'z') || ('A' ≤ c && c ≤ 'Z') || c == '_' || c == ':') &&
      rest.all fun d => inClass d || d == ':'

/-- The registerer's name grammar in the library versions that accept every
non-empty name. -/
def utf8Name (s : String) : Bool := !s.data.isEmpty

/-- Names the default registerer holds from the start: it registers the Go
runtime collector and the process collector when the library is loaded.
Listed are four names of the Go runtime collector. -/
def heldAtStart : List String :=
  ["go_goroutines", "go_threads", "go_info", "go_memstats_alloc_bytes_total"]

/-- A report with one group holding one metric. -/
def oneMetric (h : Header) (group metricName : String) (val : JsonValue) : MetricsReport :=
  ⟨h, [(group, [(metricName, val)])]⟩

/-! ## The run of a report as a list of writes -/

/-- The pairs (derived name, value) of one group, in visiting order. -/
def groupOps (pfx group : String) (metrics : List (String × JsonValue)) :
    List (String × JsonValue) :=
  metrics.map fun p => (fqnOf pfx group p.1, p.2)

/-- The pairs (derived name, value) of a report, in visiting order. -/
def reportOps (mr : MetricsReport) : List (String × JsonValue) :=
  mr.Metrics.flatMap fun g => groupOps (namePfx mr.Header) g.1 g.2

/-- Running `reconcile` over a list of (name, value) pairs, stopping at the
first fatal outcome. -/
def runOps {F : Type} [Zero F] (float64 : String → Option F)
    (accepts : String → Bool) :
    List (String × JsonValue) → State F → Outcome F
  | [], σ => .done σ
  | (n, v) :: rest, σ =>
    match reconcile float64 accepts n v σ with
    | .done σ1 => runOps float64 accepts rest σ1
    | .fatal c σ1 => .fatal c σ1

/-- Sequencing of outcomes. -/
def Outcome.andThen {F : Type} (o : Outcome F) (k : State F → Outcome F) : Outcome F :=
  match o with
  | .done σ => k σ
  | .fatal c σ => .fatal c σ

/-- The report holds a numeric metric with the number `text` whose derived name
is `n`. -/
def writes (mr : MetricsReport) (n text : String) : Prop :=
  ∃ group metrics metricName, (group, metrics) ∈ mr.Metrics ∧
    (metricName, JsonValue.number text) ∈ metrics ∧
    fqnOf (namePfx mr.Header) group metricName = n

/-- The two reports are one decoded report visited in two orders: the same
header, the same groups in some order, and in each group the same metrics in
some order. -/
def SameMap (r r1 : MetricsReport) : Prop :=
  r.Header = r1.Header ∧
  ∃ gs, List.Perm r.Metrics gs ∧
    List.Forall₂ (fun g g1 => g.1 = g1.1 ∧ List.Perm g.2 g1.2) gs r1.Metrics

/-- The report holds a numeric metric whose derived name is `n`. -/
def setsName (mr : MetricsReport) (n : String) : Prop :=
  ∃ group metrics metricName text, (group, metrics) ∈ mr.Metrics ∧
    (metricName, JsonValue.number text) ∈ metrics ∧
    fqnOf (namePfx mr.Header) group metricName = n

/-- The value the pair (k, v) writes under the name `n`: the converted number
when `v` is a number and `k` is `n`. -/
def writeOf {F : Type} (float64 : String → Option F) (k : String) (v : JsonValue)
    (n : String) : Option F :=
  match v with
  | .number text => if k = n then float64 text else none
  | _ => none

/-- The value the last numeric pair named `n` converts to, if there is one. -/
def lastWrite {F : Type} (float64 : String → Option F) :
    List (String × JsonValue) → String → Option F
  | [], _ => none
  | (k, v) :: rest, n =>
    match lastWrite float64 rest n with
    | some x => some x
    | none => writeOf float64 k v n

/-- Every gauge binding of the registry points at an allocated gauge object,
and no gauge object is bound under two names. -/
def WF {F : Type} (σ : State F) : Prop :=
  (∀ n g, lookup n σ.metricsRegistry = some (.gauge g) → g < σ.gauges.length) ∧
  (∀ n n1 g, lookup n σ.metricsRegistry = some (.gauge g) →
    lookup n1 σ.metricsRegistry = some (.gauge g) → n = n1)

/-- The registry of the second state is that of the first with the bindings
`added`, all of names that were absent, put in front; the gauge objects of the
first state are still there under their names, followed by one new gauge object
for each added name. -/
def GrowsBy {F : Type} (added : List (String × Metric)) (σ σ1 : State F) : Prop :=
  σ1.metricsRegistry = added ++ σ.metricsRegistry ∧
  (∀ p ∈ added, lookup p.1 σ.metricsRegistry = none) ∧
  σ1.gauges.map Gauge.Name = σ.gauges.map Gauge.Name ++ (added.map Prod.fst).reverse

/-- Idempotent registration as the specification puts it: reconciling, from
the empty registry, one report per number of `txts`, all with the header `h`
and the one metric (G, M), completes with exactly one registry entry, keyed by
the derived name, whose gauge reads the last number. -/
def RegistersOnce {F : Type} [Zero F] (float64 : String → Option F)
    (accepts : String → Bool) (held : List String) (h : Header) (G M : String)
    (txts : List String) : Prop :=
  ∃ σ : State F, recordAll float64 accepts (txts.map fun t => oneMetric h G M (.number t))
      (State.init held) = .done σ ∧
    names σ = [fqnOf (namePfx h) G M] ∧
    ∀ hne : txts ≠ [], valueOf σ (fqnOf (namePfx h) G M) = float64 (txts.getLast hne)

/-- Order-insensitivity of two reports on a state, as the specification puts
it: both orders leave the same names and the same value under each name. -/
def OrderInsensitive {F : Type} [Zero F] (float64 : String → Option F)
    (accepts : String → Bool) (σ : State F)
    (r1 r2 : MetricsReport) : Prop :=
  ∀ σ12 σ21, recordAll float64 accepts [r1, r2] σ = .done σ12 →
    recordAll float64 accepts [r2, r1] σ = .done σ21 →
    (∀ n, n ∈ names σ12 ↔ n ∈ names σ21) ∧ ∀ n, valueOf σ12 n = valueOf σ21 n

/-- All names of the registry and of the gauge objects are over the alphabet. -/
def NamesOK {F : Type} (σ : State F) : Prop :=
  (∀ n ∈ names σ, inAlphabet n) ∧ ∀ g ∈ σ.gauges, inAlphabet g.Name

/-! ## Name derivation: lemmas -/

theorem replaceAll_data (l : List Char) :
    (l.flatMap fun c => if regexMatch c then "_".data else [c]) = l.map sanitizeChar := by
  induction l with
  | nil => rfl
  | cons c t ih =>
    simp only [List.flatMap_cons, List.map_cons, ih]
    by_cases hc : inClass c = true <;> simp [regexMatch, sanitizeChar, hc]

theorem ReplaceAllString_eq_sanitize (r : String) : ReplaceAllString r "_" = sanitize r := by
  simp only [ReplaceAllString, sanitize, replaceAll_data]

theorem inClass_sanitizeChar (c : Char) : inClass (sanitizeChar c) = true := by
  unfold sanitizeChar
  split
  · assumption
  · decide

theorem inAlphabet_fqnOf (pfx group metricName : String) :
    inAlphabet (fqnOf pfx group metricName) := by
  intro c hc
  rw [fqnOf, ReplaceAllString_eq_sanitize] at hc
  simp only [sanitize, List.mem_map] at hc
  obtain ⟨d, -, rfl⟩ := hc
  exact inClass_sanitizeChar d

/-- C2: sanitization is per character and keeps the length: the derived name
has as many characters as the raw concatenation `pfx_G_N`, its character at
every position is the raw one when that is in `[A-Za-z0-9_]` and an underscore
otherwise, and adjacent disallowed characters are not collapsed; scenario E
gives `J_1_C_g_a_b_c`. -/
theorem C2_sanitize_per_character :
    (∀ (pfx G N : String),
      (fqnOf pfx G N).length = (pfx ++ "_" ++ G ++ "_" ++ N).length ∧
      ∀ i : Nat, (fqnOf pfx G N).data[i]? =
        ((pfx ++ "_" ++ G ++ "_" ++ N).data[i]?).map
          (fun c => if inClass c = true then c else '_')) ∧
    (∀ r : String, (ReplaceAllString r "_").length = r.length ∧
      ∀ i : Nat, (ReplaceAllString r "_").data[i]? =
        (r.data[i]?).map (fun c => if inClass c = true then c else '_')) ∧
    ReplaceAllString "a./b" "_" = "a__b" ∧
    fqnOf (namePfx (mkHeader "J" "1" "C" "C")) "g" "a.b/c" = "J_1_C_g_a_b_c" := by
  have key : ∀ r : String, (ReplaceAllString r "_").length = r.length ∧
      ∀ i : Nat, (ReplaceAllString r "_").data[i]? =
        (r.data[i]?).map (fun c => if inClass c = true then c else '_') := by
    intro r
    rw [ReplaceAllString_eq_sanitize]
    refine ⟨?_, fun i => ?_⟩
    · show (r.data.map sanitizeChar).length = r.data.length
      exact List.length_map _ _
    · simp only [sanitize, List.getElem?_map]
      rfl
  exact ⟨fun pfx G N => key _, key, by decide, by decide⟩

/-! ## Collisions -/

theorem inClass_eq (c : Char) : inClass c = (alnum c || c == '_') := rfl

theorem sanitizeChar_eq_iff (a b : Char) :
    sanitizeChar a = sanitizeChar b ↔ a = b ∨ (alnum a = false ∧ alnum b = false) := by
  have hu : alnum '_' = false := by decide
  unfold sanitizeChar
  rw [inClass_eq, inClass_eq]
  by_cases ha : alnum a = true <;> by_cases hb : alnum b = true <;>
    by_cases ha1 : a = '_' <;> by_cases hb1 : b = '_' <;>
    simp_all
  · intro h
    rw [h, hb] at ha
    exact Bool.noConfusion ha
  · constructor
    · intro h
      exact absurd h.symm hb1
    · intro h
      rw [h, hb] at ha
      exact Bool.noConfusion ha

theorem sanitize_eq_iff (r1 r2 : String) :
    sanitize r1 = sanitize r2 ↔
      List.Forall₂ (fun a b => a = b ∨ (alnum a = false ∧ alnum b = false)) r1.data r2.data := by
  have h1 : sanitize r1 = sanitize r2 ↔
      r1.data.map sanitizeChar = r2.data.map sanitizeChar := by
    constructor
    · intro h
      exact congrArg String.data h
    · intro h
      simp only [sanitize, h]
  rw [h1, ← List.forall₂_eq_eq_eq, List.forall₂_map_left_iff, List.forall₂_map_right_iff]
  constructor
  · intro h
    exact h.imp fun _ _ hab => (sanitizeChar_eq_iff _ _).1 hab
  · intro h
    exact h.imp fun _ _ hab => (sanitizeChar_eq_iff _ _).2 hab

/-- C9: under one header and group the metric names `a.b` and `a_b` derive the
same name; two raw names derive the same name exactly when they have the same
length and at every position their characters are equal or both outside
`[A-Za-z0-9]`; so raw names of different lengths, or differing at a position
that holds a letter or digit, never collide. -/
theorem C9_collisions :
    (∀ (h : Header) (G : String),
      fqnOf (namePfx h) G "a.b" = fqnOf (namePfx h) G "a_b") ∧
    (∀ r1 r2 : String,
      ReplaceAllString r1 "_" = ReplaceAllString r2 "_" ↔
        r1.length = r2.length ∧
        ∀ (i : Nat) (h1 : i < r1.data.length) (h2 : i < r2.data.length),
          r1.data.get ⟨i, h1⟩ = r2.data.get ⟨i, h2⟩ ∨
          (alnum (r1.data.get ⟨i, h1⟩) = false ∧ alnum (r2.data.get ⟨i, h2⟩) = false)) ∧
    (∀ r1 r2 : String, r1.length ≠ r2.length →
      ReplaceAllString r1 "_" ≠ ReplaceAllString r2 "_") ∧
    (∀ (r1 r2 : String) (i : Nat) (h1 : i < r1.data.length) (h2 : i < r2.data.length),
      r1.data.get ⟨i, h1⟩ ≠ r2.data.get ⟨i, h2⟩ →
      (alnum (r1.data.get ⟨i, h1⟩) = true ∨ alnum (r2.data.get ⟨i, h2⟩) = true) →
      ReplaceAllString r1 "_" ≠ ReplaceAllString r2 "_") := by
  have key : ∀ r1 r2 : String,
      ReplaceAllString r1 "_" = ReplaceAllString r2 "_" ↔
        r1.length = r2.length ∧
        ∀ (i : Nat) (h1 : i < r1.data.length) (h2 : i < r2.data.length),
          r1.data.get ⟨i, h1⟩ = r2.data.get ⟨i, h2⟩ ∨
          (alnum (r1.data.get ⟨i, h1⟩) = false ∧ alnum (r2.data.get ⟨i, h2⟩) = false) := by
    intro r1 r2
    rw [ReplaceAllString_eq_sanitize, ReplaceAllString_eq_sanitize, sanitize_eq_iff,
      List.forall₂_iff_get]
    rfl
  refine ⟨?_, key, ?_, ?_⟩
  · intro h G
    have hlit : "a.b".data.map sanitizeChar = "a_b".data.map sanitizeChar := by decide
    rw [fqnOf, fqnOf, ReplaceAllString_eq_sanitize, ReplaceAllString_eq_sanitize]
    simp only [sanitize, Sprintf3, String.data_append, List.map_append, hlit]
  · intro r1 r2 hlen heq
    exact hlen ((key r1 r2).1 heq).1
  · intro r1 r2 i h1 h2 hne hal heq
    rcases ((key r1 r2).1 heq).2 i h1 h2 with h | ⟨ha, hb⟩
    · exact hne h
    · rcases hal with h | h
      · rw [ha] at h; exact Bool.noConfusion h
      · rw [hb] at h; exact Bool.noConfusion h

/-! ## The heap and the map -/

section Run

variable {F : Type}

theorem map_Name_setValue (v : F) (h : Nat) (l : List (Gauge F)) :
    (setValue v h l).map Gauge.Name = l.map Gauge.Name := by
  induction l generalizing h with
  | nil => cases h <;> rfl
  | cons g t ih =>
    cases h with
    | zero => rfl
    | succ k => simp only [setValue, List.map_cons, ih]

theorem length_setValue (v : F) (h : Nat) (l : List (Gauge F)) :
    (setValue v h l).length = l.length := by
  have := congrArg List.length (map_Name_setValue v h l)
  simpa using this

theorem getElem?_setValue_ne (v : F) {h i : Nat} (hne : i ≠ h) (l : List (Gauge F)) :
    (setValue v h l)[i]? = l[i]? := by
  induction l generalizing h i with
  | nil => cases h <;> rfl
  | cons g t ih =>
    cases h with
    | zero =>
      cases i with
      | zero => exact absurd rfl hne
      | succ j => rfl
    | succ k =>
      cases i with
      | zero => simp [setValue]
      | succ j =>
        simp only [setValue, List.getElem?_cons_succ]
        exact ih (fun e => hne (congrArg Nat.succ e))

theorem getElem?_setValue_self (v : F) (h : Nat) (l : List (Gauge F)) :
    ((setValue v h l)[h]?).map Gauge.value = (l[h]?).map fun _ => v := by
  induction l generalizing h with
  | nil => cases h <;> rfl
  | cons g t ih =>
    cases h with
    | zero => simp [setValue]
    | succ k =>
      simp only [setValue, List.getElem?_cons_succ]
      exact ih k

theorem setValue_length_append (v : F) (l : List (Gauge F)) (g : Gauge F) :
    setValue v l.length (l ++ [g]) = l ++ [{ g with value := v }] := by
  induction l with
  | nil => rfl
  | cons a t ih =>
    show a :: setValue v t.length (t ++ [g]) = a :: (t ++ [{ g with value := v }])
    rw [ih]

theorem lookup_append (k : String) (a b : List (String × Metric)) :
    lookup k (a ++ b) = match lookup k a with
      | some m => some m
      | none => lookup k b := by
  induction a with
  | nil => rfl
  | cons p t ih =>
    obtain ⟨k1, m1⟩ := p
    by_cases hk : k1 = k
    · show lookup k ((k1, m1) :: (t ++ b)) = _
      simp only [lookup, if_pos hk]
    · show lookup k ((k1, m1) :: (t ++ b)) = _
      simp only [lookup, if_neg hk, ih]

theorem mem_of_lookup {k : String} {l : List (String × Metric)} {m : Metric}
    (h : lookup k l = some m) : (k, m) ∈ l := by
  induction l with
  | nil => exact Option.noConfusion h
  | cons p t ih =>
    obtain ⟨k1, m1⟩ := p
    by_cases hk : k1 = k
    · simp only [lookup, if_pos hk, Option.some.injEq] at h
      rw [hk, h]
      exact List.mem_cons_self _ _
    · simp only [lookup, if_neg hk] at h
      exact List.mem_cons_of_mem _ (ih h)

theorem lookup_isSome_iff (k : String) (l : List (String × Metric)) :
    (lookup k l).isSome = true ↔ k ∈ l.map Prod.fst := by
  induction l with
  | nil => simp [lookup]
  | cons p t ih =>
    obtain ⟨k1, m1⟩ := p
    by_cases hk : k1 = k
    · simp [lookup, hk]
    · have hk2 : ¬ k = k1 := fun e => hk e.symm
      simp only [lookup, if_neg hk, ih, List.map_cons, List.mem_cons, hk2, false_or]

/-! ## The type switch, case by case -/

variable [Zero F] (float64 : String → Option F) (accepts : String → Bool)

theorem reconcile_number_none {n text : String} (σ : State F) (h : float64 text = none) :
    reconcile float64 accepts n (.number text) σ = .fatal (.conversion text) σ := by
  simp only [reconcile, h]

theorem reconcile_number_gauge {n text : String} {v : F} {g : Nat} (σ : State F)
    (h : float64 text = some v) (hl : lookup n σ.metricsRegistry = some (.gauge g)) :
    reconcile float64 accepts n (.number text) σ = .done (gaugeSet g v σ) := by
  simp only [reconcile, h, hl]

theorem reconcile_number_other {n text : String} {v : F} {k : Nat} (σ : State F)
    (h : float64 text = some v) (hl : lookup n σ.metricsRegistry = some (.other k)) :
    reconcile float64 accepts n (.number text) σ = .fatal .typeSwitch σ := by
  simp only [reconcile, h, hl]

theorem reconcile_number_absent {n text : String} {v : F} (σ : State F)
    (h : float64 text = some v) (hl : lookup n σ.metricsRegistry = none)
    (hacc : accepts n = true) (hfree : n ∉ σ.registered) :
    reconcile float64 accepts n (.number text) σ =
      .done ⟨(n, .gauge σ.gauges.length) :: σ.metricsRegistry, σ.gauges ++ [⟨n, v⟩],
        σ.stdout, n :: σ.registered⟩ := by
  have hc : accepts n = true ∧ n ∉ σ.registered := ⟨hacc, hfree⟩
  simp only [reconcile, h, hl, NewGauge, if_pos hc, gaugeSet, setValue_length_append]

theorem reconcile_number_refused {n text : String} {v : F} (σ : State F)
    (h : float64 text = some v) (hl : lookup n σ.metricsRegistry = none)
    (hc : ¬ (accepts n = true ∧ n ∉ σ.registered)) :
    reconcile float64 accepts n (.number text) σ = .fatal (.registration n) σ := by
  simp only [reconcile, h, hl, NewGauge, if_neg hc]

theorem reconcile_not_number {n : String} {val : JsonValue} (σ : State F)
    (h : ∀ text, val ≠ .number text) :
    ∃ out, reconcile float64 accepts n val σ =
      .done ⟨σ.metricsRegistry, σ.gauges, σ.stdout ++ out, σ.registered⟩ := by
  cases val with
  | number text => exact absurd rfl (h text)
  | bool b => exact ⟨[boolLine n b], rfl⟩
  | str s => exact ⟨[], by simp [reconcile]⟩
  | null => exact ⟨[], by simp [reconcile]⟩
  | array => exact ⟨[], by simp [reconcile]⟩
  | object => exact ⟨[], by simp [reconcile]⟩

/-! ## The loops as one run over the writes -/

theorem runOps_append (a b : List (String × JsonValue)) (σ : State F) :
    runOps float64 accepts (a ++ b) σ = (runOps float64 accepts a σ).andThen (runOps float64 accepts b) := by
  induction a generalizing σ with
  | nil => rfl
  | cons p t ih =>
    obtain ⟨n, v⟩ := p
    simp only [List.cons_append, runOps]
    cases reconcile float64 accepts n v σ with
    | done σ1 => exact ih σ1
    | fatal c σ1 => rfl

theorem rangeMetrics_eq_runOps (pfx group : String) (ms : List (String × JsonValue))
    (σ : State F) :
    rangeMetrics float64 accepts pfx group ms σ = runOps float64 accepts (groupOps pfx group ms) σ := by
  induction ms generalizing σ with
  | nil => rfl
  | cons p t ih =>
    obtain ⟨n, v⟩ := p
    simp only [rangeMetrics, groupOps, List.map_cons, runOps]
    cases reconcile float64 accepts (fqnOf pfx group n) v σ with
    | done σ1 => exact ih σ1
    | fatal c σ1 => rfl

theorem rangeGroups_eq_runOps (pfx : String) (gs : List (String × List (String × JsonValue)))
    (σ : State F) :
    rangeGroups float64 accepts pfx gs σ =
      runOps float64 accepts (gs.flatMap fun g => groupOps pfx g.1 g.2) σ := by
  induction gs generalizing σ with
  | nil => rfl
  | cons p t ih =>
    obtain ⟨g, ms⟩ := p
    simp only [rangeGroups, List.flatMap_cons, runOps_append, rangeMetrics_eq_runOps]
    cases runOps float64 accepts (groupOps pfx g ms) σ with
    | done σ1 => exact ih σ1
    | fatal c σ1 => rfl

theorem recordMetrics_eq_runOps (mr : MetricsReport) (σ : State F) :
    recordMetrics float64 accepts mr σ = runOps float64 accepts (reportOps mr) σ :=
  rangeGroups_eq_runOps float64 accepts _ _ σ

theorem recordAll_eq_runOps (rs : List MetricsReport) (σ : State F) :
    recordAll float64 accepts rs σ = runOps float64 accepts (rs.flatMap reportOps) σ := by
  induction rs generalizing σ with
  | nil => rfl
  | cons r t ih =>
    simp only [recordAll, List.flatMap_cons, runOps_append, recordMetrics_eq_runOps]
    cases runOps float64 accepts (reportOps r) σ with
    | done σ1 => exact ih σ1
    | fatal c σ1 => rfl

theorem mem_reportOps {mr : MetricsReport} {n : String} {v : JsonValue}
    (h : (n, v) ∈ reportOps mr) :
    ∃ group metrics metricName, (group, metrics) ∈ mr.Metrics ∧ (metricName, v) ∈ metrics ∧
      fqnOf (namePfx mr.Header) group metricName = n := by
  simp only [reportOps, groupOps, List.mem_flatMap, List.mem_map] at h
  obtain ⟨⟨g, ms⟩, hg, ⟨m, v1⟩, hm, heq⟩ := h
  simp only [Prod.mk.injEq] at heq
  obtain ⟨h1, h2⟩ := heq
  subst h2
  exact ⟨g, ms, m, hg, hm, h1⟩

theorem reportOps_mem {mr : MetricsReport} {group metricName : String}
    {metrics : List (String × JsonValue)} {v : JsonValue}
    (hg : (group, metrics) ∈ mr.Metrics) (hm : (metricName, v) ∈ metrics) :
    (fqnOf (namePfx mr.Header) group metricName, v) ∈ reportOps mr := by
  simp only [reportOps, groupOps, List.mem_flatMap, List.mem_map]
  exact ⟨(group, metrics), hg, (metricName, v), hm, rfl⟩

end Run

/-! ## Growth of the registry -/

section Growth

variable {F : Type}

theorem GrowsBy.refl (σ : State F) : GrowsBy [] σ σ := by
  refine ⟨rfl, ?_, ?_⟩
  · intro p hp
    exact absurd hp (List.not_mem_nil p)
  · simp

theorem GrowsBy.trans {a1 a2 : List (String × Metric)} {σ σ1 σ2 : State F}
    (h1 : GrowsBy a1 σ σ1) (h2 : GrowsBy a2 σ1 σ2) : GrowsBy (a2 ++ a1) σ σ2 := by
  obtain ⟨r1, n1, g1⟩ := h1
  obtain ⟨r2, n2, g2⟩ := h2
  refine ⟨?_, ?_, ?_⟩
  · rw [r2, r1, List.append_assoc]
  · intro p hp
    rcases List.mem_append.1 hp with hp | hp
    · have h := n2 p hp
      rw [r1, lookup_append] at h
      cases hl : lookup p.1 a1 with
      | none => rw [hl] at h; exact h
      | some m => rw [hl] at h; exact Option.noConfusion h
    · exact n1 p hp
  · rw [g2, g1, List.map_append, List.reverse_append, List.append_assoc]

theorem GrowsBy.keeps {a : List (String × Metric)} {σ σ1 : State F} (h : GrowsBy a σ σ1)
    {n : String} {m : Metric} (hl : lookup n σ.metricsRegistry = some m) :
    lookup n σ1.metricsRegistry = some m := by
  obtain ⟨r, na, -⟩ := h
  rw [r, lookup_append]
  cases hla : lookup n a with
  | none => exact hl
  | some m1 =>
    have := na _ (mem_of_lookup hla)
    rw [hl] at this
    exact Option.noConfusion this

theorem GrowsBy.namesOK {a : List (String × Metric)} {σ σ1 : State F} (h : GrowsBy a σ σ1)
    (ha : ∀ p ∈ a, inAlphabet p.1) (hok : NamesOK σ) : NamesOK σ1 := by
  obtain ⟨r, -, g⟩ := h
  obtain ⟨hn, hg⟩ := hok
  have hall : ∀ n ∈ σ1.gauges.map Gauge.Name, inAlphabet n := by
    intro n hmem
    rw [g] at hmem
    rcases List.mem_append.1 hmem with hmem | hmem
    · obtain ⟨g0, hg0, rfl⟩ := List.mem_map.1 hmem
      exact hg g0 hg0
    · obtain ⟨p, hp, rfl⟩ := List.mem_map.1 (List.mem_reverse.1 hmem)
      exact ha p hp
  refine ⟨?_, fun g1 hg1 => hall _ (List.mem_map_of_mem _ hg1)⟩
  intro n hmem
  simp only [names, r, List.map_append] at hmem
  rcases List.mem_append.1 hmem with hmem | hmem
  · obtain ⟨p, hp, rfl⟩ := List.mem_map.1 hmem
    exact ha p hp
  · exact hn n hmem

variable [Zero F] (float64 : String → Option F) (accepts : String → Bool)

theorem reconcile_growsBy (n : String) (v : JsonValue) (σ : State F) :
    ∃ added, GrowsBy added σ (reconcile float64 accepts n v σ).state ∧
      ∀ p ∈ added, p.1 = n ∧ (∃ text, v = .number text) ∧ ∃ g, p.2 = .gauge g := by
  have hsame : ∀ o : Outcome F, o.state.metricsRegistry = σ.metricsRegistry →
      o.state.gauges.map Gauge.Name = σ.gauges.map Gauge.Name →
      ∃ added, GrowsBy added σ o.state ∧
        ∀ p ∈ added, p.1 = n ∧ (∃ text, v = .number text) ∧ ∃ g, p.2 = .gauge g := by
    intro o hr hg
    refine ⟨[], ⟨hr, ?_, by simpa using hg⟩, ?_⟩ <;>
    · intro p hp
      exact absurd hp (List.not_mem_nil p)
  by_cases hnum : ∃ text, v = .number text
  · obtain ⟨text, rfl⟩ := hnum
    cases hf : float64 text with
    | none =>
      rw [reconcile_number_none float64 accepts σ hf]
      exact hsame _ rfl rfl
    | some x =>
      cases hl : lookup n σ.metricsRegistry with
      | none =>
        by_cases hc : accepts n = true ∧ n ∉ σ.registered
        case neg =>
          rw [reconcile_number_refused float64 accepts σ hf hl hc]
          exact hsame _ rfl rfl
        rw [reconcile_number_absent float64 accepts σ hf hl hc.1 hc.2]
        refine ⟨[(n, .gauge σ.gauges.length)], ⟨rfl, ?_, ?_⟩, ?_⟩
        · intro p hp
          rw [List.mem_singleton.1 hp]
          exact hl
        · simp [Outcome.state]
        · intro p hp
          rw [List.mem_singleton.1 hp]
          exact ⟨rfl, ⟨text, rfl⟩, ⟨_, rfl⟩⟩
      | some m =>
        cases m with
        | gauge g =>
          rw [reconcile_number_gauge float64 accepts σ hf hl]
          exact hsame _ rfl (map_Name_setValue x g σ.gauges)
        | other k =>
          rw [reconcile_number_other float64 accepts σ hf hl]
          exact hsame _ rfl rfl
  · obtain ⟨out, ho⟩ := reconcile_not_number float64 accepts (n := n) σ
      (fun text e => hnum ⟨text, e⟩)
    rw [ho]
    exact hsame _ rfl rfl

theorem runOps_growsBy (ops : List (String × JsonValue)) (σ : State F) :
    ∃ added, GrowsBy added σ (runOps float64 accepts ops σ).state ∧
      ∀ p ∈ added, (∃ text, (p.1, JsonValue.number text) ∈ ops) ∧ ∃ g, p.2 = .gauge g := by
  induction ops generalizing σ with
  | nil =>
    refine ⟨[], GrowsBy.refl σ, ?_⟩
    intro p hp
    exact absurd hp (List.not_mem_nil p)
  | cons q t ih =>
    obtain ⟨n, v⟩ := q
    obtain ⟨a1, hg1, hp1⟩ := reconcile_growsBy float64 accepts n v σ
    have hhead : ∀ p ∈ a1, (∃ text, (p.1, JsonValue.number text) ∈ (n, v) :: t) ∧
        ∃ g, p.2 = .gauge g := by
      intro p hp
      obtain ⟨h1, ⟨text, h2⟩, h3⟩ := hp1 p hp
      refine ⟨⟨text, ?_⟩, h3⟩
      rw [h1, ← h2]
      exact List.mem_cons_self _ _
    simp only [runOps]
    cases hrec : reconcile float64 accepts n v σ with
    | fatal c σ1 =>
      rw [hrec] at hg1
      exact ⟨a1, hg1, hhead⟩
    | done σ1 =>
      rw [hrec] at hg1
      obtain ⟨a2, hg2, hp2⟩ := ih σ1
      refine ⟨a2 ++ a1, hg1.trans hg2, ?_⟩
      intro p hp
      rcases List.mem_append.1 hp with hp | hp
      · obtain ⟨⟨text, h2⟩, h3⟩ := hp2 p hp
        exact ⟨⟨text, List.mem_cons_of_mem _ h2⟩, h3⟩
      · exact hhead p hp

theorem runOps_fatal_of_other {ops : List (String × JsonValue)} {σ : State F}
    {n text : String} {k : Nat} (hmem : (n, JsonValue.number text) ∈ ops)
    (hb : lookup n σ.metricsRegistry = some (.other k)) :
    ∃ c σ1, runOps float64 accepts ops σ = .fatal c σ1 := by
  induction ops generalizing σ with
  | nil => exact absurd hmem (List.not_mem_nil _)
  | cons q t ih =>
    obtain ⟨n1, v1⟩ := q
    simp only [runOps]
    cases hrec : reconcile float64 accepts n1 v1 σ with
    | fatal c σ1 => exact ⟨c, σ1, rfl⟩
    | done σ1 =>
      rcases List.mem_cons.1 hmem with heq | htail
      · simp only [Prod.mk.injEq] at heq
        obtain ⟨h1, h2⟩ := heq
        subst h1 h2
        cases hf : float64 text with
        | none =>
          rw [reconcile_number_none float64 accepts σ hf] at hrec
          exact Outcome.noConfusion hrec
        | some x =>
          rw [reconcile_number_other float64 accepts σ hf hb] at hrec
          exact Outcome.noConfusion hrec
      · obtain ⟨a1, hg1, -⟩ := reconcile_growsBy float64 accepts n1 v1 σ
        rw [hrec] at hg1
        exact ih htail (hg1.keeps hb)

theorem runOps_no_number {ops : List (String × JsonValue)} (σ : State F)
    (h : ∀ n v, (n, v) ∈ ops → ∀ text, v ≠ JsonValue.number text) :
    ∃ out, runOps float64 accepts ops σ =
      .done ⟨σ.metricsRegistry, σ.gauges, σ.stdout ++ out, σ.registered⟩ := by
  induction ops generalizing σ with
  | nil => exact ⟨[], by simp [runOps]⟩
  | cons q t ih =>
    obtain ⟨n, v⟩ := q
    obtain ⟨o1, h1⟩ := reconcile_not_number float64 accepts (n := n) σ
      (h n v (List.mem_cons_self _ _))
    obtain ⟨o2, h2⟩ := ih ⟨σ.metricsRegistry, σ.gauges, σ.stdout ++ o1, σ.registered⟩
      (fun n1 v1 hm => h n1 v1 (List.mem_cons_of_mem _ hm))
    refine ⟨o1 ++ o2, ?_⟩
    simp only [runOps, h1, h2, List.append_assoc]

theorem inAlphabet_of_mem_reports {rs : List MetricsReport} {n : String} {v : JsonValue}
    (h : (n, v) ∈ rs.flatMap reportOps) : inAlphabet n := by
  obtain ⟨mr, -, hmr⟩ := List.mem_flatMap.1 h
  obtain ⟨g, ms, m, -, -, rfl⟩ := mem_reportOps hmr
  exact inAlphabet_fqnOf _ _ _

end Growth

/-! ## Repeated reports of one metric -/

section Repeat

variable {F : Type} [Zero F] (float64 : String → Option F) (accepts : String → Bool)

theorem ops_of_repeated (h : Header) (G M : String) (txts : List String) :
    (txts.map fun t => oneMetric h G M (.number t)).flatMap reportOps =
      txts.map fun t => (fqnOf (namePfx h) G M, JsonValue.number t) := by
  induction txts with
  | nil => rfl
  | cons t rest ih =>
    simp only [List.map_cons, List.flatMap_cons, ih]
    rfl

theorem runOps_rewrite (N : String) (txts : List String)
    (hconv : ∀ t ∈ txts, (float64 t).isSome = true) (v : F) (out reg : List String) :
    ∃ w, runOps float64 accepts (txts.map fun t => (N, JsonValue.number t))
        ⟨[(N, .gauge 0)], [⟨N, v⟩], out, reg⟩ = .done ⟨[(N, .gauge 0)], [⟨N, w⟩], out, reg⟩ ∧
      (txts = [] → w = v) ∧ ∀ hne : txts ≠ [], float64 (txts.getLast hne) = some w := by
  induction txts generalizing v with
  | nil => exact ⟨v, rfl, fun _ => rfl, fun hne => absurd rfl hne⟩
  | cons t rest ih =>
    obtain ⟨x, hx⟩ := Option.isSome_iff_exists.1 (hconv t (List.mem_cons_self _ _))
    obtain ⟨w, hrun, hnil, hlast⟩ := ih (fun t1 h1 => hconv t1 (List.mem_cons_of_mem _ h1)) x
    have hl : lookup N (⟨[(N, .gauge 0)], [⟨N, v⟩], out, reg⟩ : State F).metricsRegistry
        = some (.gauge 0) := by
      simp [lookup]
    refine ⟨w, ?_, fun hc => List.noConfusion hc, ?_⟩
    · simp only [List.map_cons, runOps, reconcile_number_gauge float64 accepts _ hx hl]
      exact hrun
    · intro hne
      by_cases hr : rest = []
      · subst hr
        rw [hnil rfl]
        exact hx
      · rw [List.getLast_cons hr]
        exact hlast hr

end Repeat

/-! ## The values read under the names -/

section View

variable {F : Type}

theorem lastWrite_none_of_not_mem (float64 : String → Option F)
    {ops : List (String × JsonValue)} {n : String}
    (h : ¬ ∃ text, (n, JsonValue.number text) ∈ ops) : lastWrite float64 ops n = none := by
  induction ops with
  | nil => rfl
  | cons q t ih =>
    obtain ⟨k, v⟩ := q
    have ht : lastWrite float64 t n = none :=
      ih (fun ⟨text, hm⟩ => h ⟨text, List.mem_cons_of_mem _ hm⟩)
    simp only [lastWrite, ht]
    cases v with
    | number text =>
      by_cases hk : k = n
      · subst hk
        exact absurd ⟨text, List.mem_cons_self _ _⟩ h
      · simp only [writeOf, if_neg hk]
    | bool b => rfl
    | str s => rfl
    | null => rfl
    | array => rfl
    | object => rfl

theorem setsName_iff (mr : MetricsReport) (n : String) :
    setsName mr n ↔ ∃ text, (n, JsonValue.number text) ∈ reportOps mr := by
  constructor
  · rintro ⟨g, ms, m, text, hg, hm, rfl⟩
    exact ⟨text, reportOps_mem hg hm⟩
  · rintro ⟨text, hmem⟩
    obtain ⟨g, ms, m, hg, hm, hn⟩ := mem_reportOps hmem
    exact ⟨g, ms, m, text, hg, hm, hn⟩

theorem WF_init (held : List String) : WF (State.init held : State F) := by
  constructor
  · intro n g h
    exact Option.noConfusion h
  · intro n n1 g h
    exact Option.noConfusion h

theorem valueOf_of_gauge {σ : State F} {n : String} {g : Nat}
    (h : lookup n σ.metricsRegistry = some (.gauge g)) :
    valueOf σ n = (σ.gauges[g]?).map Gauge.value := by
  simp only [valueOf, h]

theorem valueOf_of_other {σ : State F} {n : String} {k : Nat}
    (h : lookup n σ.metricsRegistry = some (.other k)) : valueOf σ n = none := by
  simp only [valueOf, h]

theorem valueOf_of_none {σ : State F} {n : String}
    (h : lookup n σ.metricsRegistry = none) : valueOf σ n = none := by
  simp only [valueOf, h]

theorem valueOf_congr {σ σ1 : State F} (hr : σ1.metricsRegistry = σ.metricsRegistry)
    (hg : σ1.gauges = σ.gauges) (n : String) : valueOf σ1 n = valueOf σ n := by
  simp only [valueOf, hr, hg]

variable [Zero F] (float64 : String → Option F) (accepts : String → Bool)

theorem reconcile_view {k : String} {v : JsonValue} {σ σ1 : State F} (hwf : WF σ)
    (hrec : reconcile float64 accepts k v σ = .done σ1) :
    WF σ1 ∧
    (∀ n, valueOf σ1 n = match writeOf float64 k v n with
      | some x => some x
      | none => valueOf σ n) ∧
    (∀ n, (lookup n σ1.metricsRegistry).isSome =
      ((lookup n σ.metricsRegistry).isSome || (writeOf float64 k v n).isSome)) := by
  by_cases hnum : ∃ text, v = .number text
  · obtain ⟨text, rfl⟩ := hnum
    cases hf : float64 text with
    | none =>
      rw [reconcile_number_none float64 accepts σ hf] at hrec
      exact Outcome.noConfusion hrec
    | some x =>
      have hw : ∀ n, writeOf float64 k (.number text) n = if k = n then some x else none := by
        intro n
        simp only [writeOf, hf]
      cases hl : lookup k σ.metricsRegistry with
      | none =>
        by_cases hc : accepts k = true ∧ k ∉ σ.registered
        case neg =>
          rw [reconcile_number_refused float64 accepts σ hf hl hc] at hrec
          exact Outcome.noConfusion hrec
        rw [reconcile_number_absent float64 accepts σ hf hl hc.1 hc.2] at hrec
        injection hrec with hrec
        subst hrec
        have hlk : ∀ n, lookup n ((k, Metric.gauge σ.gauges.length) :: σ.metricsRegistry)
            = if k = n then some (.gauge σ.gauges.length) else lookup n σ.metricsRegistry :=
          fun n => rfl
        refine ⟨⟨?_, ?_⟩, ?_, ?_⟩
        · intro n g hg
          simp only [hlk] at hg
          simp only [List.length_append, List.length_singleton]
          by_cases hk : k = n
          · rw [if_pos hk] at hg
            injection hg with hg
            injection hg with hg
            omega
          · rw [if_neg hk] at hg
            have := hwf.1 n g hg
            omega
        · intro n n1 g hg hg1
          simp only [hlk] at hg hg1
          by_cases hk : k = n <;> by_cases hk1 : k = n1
          · rw [← hk, ← hk1]
          · rw [if_pos hk] at hg
            rw [if_neg hk1] at hg1
            injection hg with hg
            injection hg with hg
            have := hwf.1 n1 g hg1
            omega
          · rw [if_neg hk] at hg
            rw [if_pos hk1] at hg1
            injection hg1 with hg1
            injection hg1 with hg1
            have := hwf.1 n g hg
            omega
          · rw [if_neg hk] at hg
            rw [if_neg hk1] at hg1
            exact hwf.2 n n1 g hg hg1
        · intro n
          rw [hw]
          by_cases hk : k = n
          · have hb : lookup n (⟨(k, Metric.gauge σ.gauges.length) :: σ.metricsRegistry,
                σ.gauges ++ [⟨k, x⟩], σ.stdout, k :: σ.registered⟩ : State F).metricsRegistry
                = some (.gauge σ.gauges.length) := by
              rw [hlk, if_pos hk]
            rw [valueOf_of_gauge hb, if_pos hk]
            simp
          · rw [if_neg hk]
            have hb : lookup n (⟨(k, Metric.gauge σ.gauges.length) :: σ.metricsRegistry,
                σ.gauges ++ [⟨k, x⟩], σ.stdout, k :: σ.registered⟩ : State F).metricsRegistry
                = lookup n σ.metricsRegistry := by
              rw [hlk, if_neg hk]
            cases hn : lookup n σ.metricsRegistry with
            | none =>
              rw [hn] at hb
              rw [valueOf_of_none hb, valueOf_of_none hn]
            | some m =>
              rw [hn] at hb
              cases m with
              | other j => rw [valueOf_of_other hb, valueOf_of_other hn]
              | gauge g =>
                rw [valueOf_of_gauge hb, valueOf_of_gauge hn]
                show Option.map Gauge.value ((σ.gauges ++ [⟨k, x⟩])[g]?) = _
                rw [List.getElem?_append_left (hwf.1 n g hn)]
        · intro n
          rw [hw]
          show (lookup n ((k, Metric.gauge σ.gauges.length) :: σ.metricsRegistry)).isSome = _
          rw [hlk]
          by_cases hk : k = n
          · simp [hk]
          · simp [hk]
      | some m =>
        cases m with
        | other j =>
          rw [reconcile_number_other float64 accepts σ hf hl] at hrec
          exact Outcome.noConfusion hrec
        | gauge g =>
          rw [reconcile_number_gauge float64 accepts σ hf hl] at hrec
          injection hrec with hrec
          subst hrec
          refine ⟨⟨?_, hwf.2⟩, ?_, ?_⟩
          · intro n g1 hg1
            show g1 < (setValue x g σ.gauges).length
            rw [length_setValue]
            exact hwf.1 n g1 hg1
          · intro n
            rw [hw]
            by_cases hk : k = n
            · subst hk
              have hb : lookup k (gaugeSet g x σ).metricsRegistry = some (.gauge g) := hl
              rw [valueOf_of_gauge hb, if_pos rfl]
              show Option.map Gauge.value ((setValue x g σ.gauges)[g]?) = _
              rw [getElem?_setValue_self]
              have hlt := hwf.1 k g hl
              simp [List.getElem?_eq_getElem hlt]
            · rw [if_neg hk]
              cases hn : lookup n σ.metricsRegistry with
              | none =>
                have hb : lookup n (gaugeSet g x σ).metricsRegistry = none := hn
                rw [valueOf_of_none hb, valueOf_of_none hn]
              | some m =>
                cases m with
                | other j =>
                  have hb : lookup n (gaugeSet g x σ).metricsRegistry = some (.other j) := hn
                  rw [valueOf_of_other hb, valueOf_of_other hn]
                | gauge g1 =>
                  have hb : lookup n (gaugeSet g x σ).metricsRegistry = some (.gauge g1) := hn
                  rw [valueOf_of_gauge hb, valueOf_of_gauge hn]
                  show Option.map Gauge.value ((setValue x g σ.gauges)[g1]?) = _
                  have hne : g1 ≠ g := by
                    intro e
                    subst e
                    exact hk (hwf.2 k n g1 hl hn)
                  rw [getElem?_setValue_ne x hne]
          · intro n
            rw [hw]
            show (lookup n σ.metricsRegistry).isSome = _
            by_cases hk : k = n
            · subst hk
              simp [hl]
            · simp [hk]
  · obtain ⟨out, ho⟩ := reconcile_not_number float64 accepts (n := k) σ
      (fun text e => hnum ⟨text, e⟩)
    rw [ho] at hrec
    injection hrec with hrec
    subst hrec
    have hw : ∀ n, writeOf float64 k v n = none := by
      intro n
      cases v with
      | number text => exact absurd ⟨text, rfl⟩ hnum
      | bool b => rfl
      | str s => rfl
      | null => rfl
      | array => rfl
      | object => rfl
    refine ⟨hwf, ?_, ?_⟩
    · intro n
      rw [hw]
      exact valueOf_congr rfl rfl n
    · intro n
      rw [hw]
      simp

theorem runOps_view {ops : List (String × JsonValue)} {σ σ1 : State F} (hwf : WF σ)
    (hrun : runOps float64 accepts ops σ = .done σ1) :
    WF σ1 ∧
    (∀ n, valueOf σ1 n = match lastWrite float64 ops n with
      | some x => some x
      | none => valueOf σ n) ∧
    (∀ n, (lookup n σ1.metricsRegistry).isSome =
      ((lookup n σ.metricsRegistry).isSome || (lastWrite float64 ops n).isSome)) := by
  induction ops generalizing σ with
  | nil =>
    simp only [runOps] at hrun
    injection hrun with hrun
    subst hrun
    exact ⟨hwf, fun n => rfl, fun n => by simp [lastWrite]⟩
  | cons q t ih =>
    obtain ⟨k, v⟩ := q
    simp only [runOps] at hrun
    cases hrec : reconcile float64 accepts k v σ with
    | fatal c σ2 =>
      rw [hrec] at hrun
      exact Outcome.noConfusion hrun
    | done σ2 =>
      rw [hrec] at hrun
      obtain ⟨hwf2, hv2, hb2⟩ := reconcile_view float64 accepts hwf hrec
      obtain ⟨hwf1, hv1, hb1⟩ := ih hwf2 hrun
      refine ⟨hwf1, ?_, ?_⟩
      · intro n
        rw [hv1 n, hv2 n]
        simp only [lastWrite]
        cases lastWrite float64 t n with
        | none => rfl
        | some y => rfl
      · intro n
        rw [hb1 n, hb2 n]
        simp only [lastWrite]
        cases lastWrite float64 t n with
        | none => simp
        | some y => simp

theorem recordAll_pair {r1 r2 : MetricsReport} {σ σ12 : State F}
    (h : recordAll float64 accepts [r1, r2] σ = .done σ12) :
    ∃ σ1, runOps float64 accepts (reportOps r1) σ = .done σ1 ∧
      runOps float64 accepts (reportOps r2) σ1 = .done σ12 := by
  simp only [recordAll, recordMetrics_eq_runOps] at h
  cases h1 : runOps float64 accepts (reportOps r1) σ with
  | fatal c σ1 =>
    rw [h1] at h
    exact Outcome.noConfusion h
  | done σ1 =>
    rw [h1] at h
    dsimp only at h
    refine ⟨σ1, rfl, ?_⟩
    cases h2 : runOps float64 accepts (reportOps r2) σ1 with
    | fatal c σ2 =>
      rw [h2] at h
      exact Outcome.noConfusion h
    | done σ2 =>
      rw [h2] at h
      exact h

end View

section Order

variable {F : Type} [Zero F] (float64 : String → Option F) (accepts : String → Bool)

theorem lastWrite_of_done {ops : List (String × JsonValue)} {σ σ1 : State F}
    (hrun : runOps float64 accepts ops σ = .done σ1) {n text : String}
    (hmem : (n, JsonValue.number text) ∈ ops) : ∃ x, lastWrite float64 ops n = some x := by
  induction ops generalizing σ with
  | nil => exact absurd hmem (List.not_mem_nil _)
  | cons q t ih =>
    obtain ⟨k, v⟩ := q
    simp only [runOps] at hrun
    cases hrec : reconcile float64 accepts k v σ with
    | fatal c σ2 =>
      rw [hrec] at hrun
      exact Outcome.noConfusion hrun
    | done σ2 =>
      rw [hrec] at hrun
      cases hlt : lastWrite float64 t n with
      | some y => exact ⟨y, by simp only [lastWrite, hlt]⟩
      | none =>
        rcases List.mem_cons.1 hmem with heq | htail
        · simp only [Prod.mk.injEq] at heq
          obtain ⟨h1, h2⟩ := heq
          subst h1 h2
          cases hf : float64 text with
          | none =>
            rw [reconcile_number_none float64 accepts σ hf] at hrec
            exact Outcome.noConfusion hrec
          | some x =>
            exact ⟨x, by simp only [lastWrite, hlt, writeOf, if_pos, hf]⟩
        · obtain ⟨y, hy⟩ := ih hrun htail
          rw [hlt] at hy
          exact Option.noConfusion hy

theorem WF_recordAll {rs : List MetricsReport} {held : List String} {σ : State F}
    (h : recordAll float64 accepts rs (State.init held : State F) = .done σ) : WF σ := by
  rw [recordAll_eq_runOps] at h
  exact (runOps_view float64 accepts (WF_init held) h).1

end Order


/-! ## Name derivation: theorems -/

section One

variable {F : Type} [Zero F] (float64 : String → Option F) (accepts : String → Bool)

theorem recordMetrics_oneMetric (h : Header) (G M text : String) {v : F} (σ : State F)
    (hf : float64 text = some v)
    (hl : lookup (fqnOf (namePfx h) G M) σ.metricsRegistry = none)
    (hacc : accepts (fqnOf (namePfx h) G M) = true)
    (hfree : fqnOf (namePfx h) G M ∉ σ.registered) :
    recordMetrics float64 accepts (oneMetric h G M (.number text)) σ =
      .done ⟨(fqnOf (namePfx h) G M, .gauge σ.gauges.length) :: σ.metricsRegistry,
        σ.gauges ++ [⟨fqnOf (namePfx h) G M, v⟩], σ.stdout,
        fqnOf (namePfx h) G M :: σ.registered⟩ := by
  simp only [recordMetrics, oneMetric, rangeGroups, rangeMetrics,
    reconcile_number_absent float64 accepts σ hf hl hacc hfree]

end One

/-- C1: the name under which a metric is looked up and registered is the
sanitized `J_I_C_G_N` when the source equals the container name and the
sanitized `J_I_C_S_G_N` otherwise; scenarios A and B give `J_1_C_g_m` and
`J_1_C_task_0_g_m`, also as the registry key after reconciling the report
under either name grammar; and whenever a report with one numeric metric is
reconciled into the empty registry and the registerer takes the name, the
registry key is the derived name. -/
theorem C1_name_derivation :
    (∀ (h : Header) (G N : String),
      fqnOf (namePfx h) G N =
        if h.Source = h.ContainerName then
          sanitize (h.JobName ++ "_" ++ h.JobID ++ "_" ++ h.ContainerName ++ "_" ++ G ++ "_" ++ N)
        else
          sanitize (h.JobName ++ "_" ++ h.JobID ++ "_" ++ h.ContainerName ++ "_" ++ h.Source
            ++ "_" ++ G ++ "_" ++ N)) ∧
    fqnOf (namePfx (mkHeader "J" "1" "C" "C")) "g" "m" = "J_1_C_g_m" ∧
    fqnOf (namePfx (mkHeader "J" "1" "C" "task-0")) "g" "m" = "J_1_C_task_0_g_m" ∧
    names (recordMetrics digitsFloat64 classicName
      (oneMetric (mkHeader "J" "1" "C" "C") "g" "m" (.number "5"))
      (State.init heldAtStart)).state = ["J_1_C_g_m"] ∧
    names (recordMetrics digitsFloat64 classicName
      (oneMetric (mkHeader "J" "1" "C" "task-0") "g" "m" (.number "5"))
      (State.init heldAtStart)).state = ["J_1_C_task_0_g_m"] ∧
    names (recordMetrics digitsFloat64 utf8Name
      (oneMetric (mkHeader "J" "1" "C" "C") "g" "m" (.number "5"))
      (State.init heldAtStart)).state = ["J_1_C_g_m"] ∧
    names (recordMetrics digitsFloat64 utf8Name
      (oneMetric (mkHeader "J" "1" "C" "task-0") "g" "m" (.number "5"))
      (State.init heldAtStart)).state = ["J_1_C_task_0_g_m"] ∧
    (∀ (accepts : String → Bool) (held : List String) (h : Header) (G N text : String),
      (digitsFloat64 text).isSome = true → accepts (fqnOf (namePfx h) G N) = true →
      fqnOf (namePfx h) G N ∉ held →
      names (recordMetrics digitsFloat64 accepts (oneMetric h G N (.number text))
        (State.init held)).state = [fqnOf (namePfx h) G N]) := by
  refine ⟨?_, by decide, by decide, by decide, by decide, by decide, by decide, ?_⟩
  · intro h G N
    rw [fqnOf, ReplaceAllString_eq_sanitize]
    by_cases hs : h.Source = h.ContainerName
    · have hc : ¬ (h.ContainerName ≠ h.Source) := fun hne => hne hs.symm
      simp only [namePfx, Sprintf3, if_neg hc, if_pos hs]
    · have hc : h.ContainerName ≠ h.Source := fun he => hs he.symm
      simp only [namePfx, Sprintf3, Sprintf2, if_pos hc, if_neg hs]
  · intro accepts held h G N text hconv hacc hfree
    obtain ⟨v, hv⟩ := Option.isSome_iff_exists.1 hconv
    rw [recordMetrics_oneMetric digitsFloat64 accepts h G N text (State.init held) hv rfl hacc
      hfree]
    rfl

/-! ## The first character -/

theorem isDigit_sanitizeChar (c : Char) : isDigit (sanitizeChar c) = isDigit c := by
  unfold sanitizeChar
  by_cases hc : inClass c = true
  · rw [if_pos hc]
  · rw [if_neg hc]
    have h1 : isDigit '_' = false := by decide
    rw [h1]
    cases hd : isDigit c with
    | false => rfl
    | true =>
      exfalso
      apply hc
      unfold isDigit at hd
      unfold inClass
      rw [hd]
      simp

theorem namePfx_data (h : Header) : ∃ rest, (namePfx h).data = h.JobName.data ++ '_' :: rest := by
  unfold namePfx
  by_cases hc : h.ContainerName ≠ h.Source
  · refine ⟨h.JobID.data ++ '_' :: (h.ContainerName.data ++ '_' :: h.Source.data), ?_⟩
    simp [if_pos hc, Sprintf2, Sprintf3, String.data_append]
  · refine ⟨h.JobID.data ++ '_' :: h.ContainerName.data, ?_⟩
    simp only [if_neg hc, Sprintf3, String.data_append]
    simp

theorem fqnOf_data (h : Header) (G N : String) :
    ∃ tl, (fqnOf (namePfx h) G N).data =
      (match h.JobName.data with
        | [] => '_'
        | j :: _ => sanitizeChar j) :: tl := by
  obtain ⟨rest, hr⟩ := namePfx_data h
  rw [fqnOf, ReplaceAllString_eq_sanitize]
  simp only [sanitize, Sprintf3, String.data_append, hr]
  cases h.JobName.data with
  | nil => exact ⟨_, rfl⟩
  | cons j js => exact ⟨_, rfl⟩

/-- C10, refuted as stated: for the header (1job, 1, C, C), group g and metric
m the derived name is `1job_1_C_g_m`; it begins with a digit and is not
scrape-safe.  Under the classic name grammar gauge construction panics and the
registry stays empty; under the grammar that takes every non-empty name the
gauge is registered under that name. -/
theorem C10_digit_first_name :
    fqnOf (namePfx (mkHeader "1job" "1" "C" "C")) "g" "m" = "1job_1_C_g_m" ∧
    scrapeSafe (fqnOf (namePfx (mkHeader "1job" "1" "C" "C")) "g" "m") = false ∧
    recordMetrics digitsFloat64 classicName
      (oneMetric (mkHeader "1job" "1" "C" "C") "g" "m" (.number "5")) (State.init heldAtStart)
      = .fatal (.registration "1job_1_C_g_m") (State.init heldAtStart) ∧
    names (recordMetrics digitsFloat64 utf8Name
      (oneMetric (mkHeader "1job" "1" "C" "C") "g" "m" (.number "5"))
      (State.init heldAtStart)).state = ["1job_1_C_g_m"] := by
  refine ⟨by decide, by decide, by rfl, by decide⟩

/-- C10, amended: for every header, group and metric name the derived name is
non-empty and consists only of ASCII letters, digits and underscore; its first
character is the sanitized first character of the job name, or an underscore
when the job name is empty; so it is scrape-safe exactly when the job name does
not begin with a digit. -/
theorem C10_names_nonempty_alphabet (h : Header) (G N : String) :
    fqnOf (namePfx h) G N ≠ "" ∧
    inAlphabet (fqnOf (namePfx h) G N) ∧
    (fqnOf (namePfx h) G N).data.head? =
      some (match h.JobName.data with
        | [] => '_'
        | j :: _ => sanitizeChar j) ∧
    (scrapeSafe (fqnOf (namePfx h) G N) = true ↔
      ¬ ∃ j js, h.JobName.data = j :: js ∧ isDigit j = true) := by
  obtain ⟨tl, htl⟩ := fqnOf_data h G N
  have halpha := inAlphabet_fqnOf (namePfx h) G N
  have hall : (fqnOf (namePfx h) G N).data.all inClass = true := by
    rw [List.all_eq_true]
    exact halpha
  refine ⟨?_, halpha, by rw [htl]; rfl, ?_⟩
  · intro he
    rw [he] at htl
    exact List.noConfusion htl
  · have hs : scrapeSafe (fqnOf (namePfx h) G N) =
        !isDigit (match h.JobName.data with
          | [] => '_'
          | j :: _ => sanitizeChar j) := by
      unfold scrapeSafe
      rw [hall]
      rw [htl]
      simp
    rw [hs]
    cases hj : h.JobName.data with
    | nil =>
      constructor
      · rintro - ⟨j, js, he, -⟩
        exact List.noConfusion he
      · intro _
        decide
    | cons j js =>
      simp only [isDigit_sanitizeChar, Bool.not_eq_true', List.cons.injEq]
      constructor
      · rintro hd ⟨j1, js1, ⟨rfl, -⟩, h1⟩
        rw [hd] at h1
        exact Bool.noConfusion h1
      · intro hn
        cases hd : isDigit j with
        | false => rfl
        | true => exact absurd ⟨j, js, ⟨rfl, rfl⟩, hd⟩ hn

/-! ## Registry: theorems -/

/-- C4: starting from the empty registry, after any finite sequence of
`recordMetrics` calls (completed or ended by a fatal error), every key of the
registry and the name of every gauge constructed consists only of ASCII
letters, digits and underscore. -/
theorem C4_alphabet_invariant {F : Type} [Zero F] (float64 : String → Option F)
    (accepts : String → Bool) (held : List String)
    (rs : List MetricsReport) :
    (∀ n ∈ names (recordAll float64 accepts rs (State.init held : State F)).state,
      ∀ c ∈ n.data, inClass c = true) ∧
    (∀ g ∈ (recordAll float64 accepts rs (State.init held : State F)).state.gauges,
      ∀ c ∈ g.Name.data, inClass c = true) := by
  rw [recordAll_eq_runOps]
  obtain ⟨added, hg, hp⟩ := runOps_growsBy float64 accepts (rs.flatMap reportOps) (State.init held : State F)
  have h0 : NamesOK (State.init held : State F) := by
    constructor <;>
    · intro x hx
      exact absurd hx (List.not_mem_nil x)
  have hadd : ∀ p ∈ added, inAlphabet p.1 := by
    intro p hmem
    obtain ⟨⟨text, ht⟩, -⟩ := hp p hmem
    exact inAlphabet_of_mem_reports ht
  exact hg.namesOK hadd h0

/-- C5: when the derived name of a numeric metric of the report is bound in
the registry to a metric that is not a gauge, processing that metric is fatal
and leaves the state as it was, and `recordMetrics` ends fatally with the name
still bound to the same metric and no gauge constructed under that name. -/
theorem C5_type_switch_rejection {F : Type} [Zero F] (float64 : String → Option F)
    (accepts : String → Bool)
    (σ : State F) (mr : MetricsReport) (group metricName text : String)
    (metrics : List (String × JsonValue)) (k : Nat)
    (hg : (group, metrics) ∈ mr.Metrics)
    (hm : (metricName, JsonValue.number text) ∈ metrics)
    (hb : lookup (fqnOf (namePfx mr.Header) group metricName) σ.metricsRegistry
      = some (.other k)) :
    (∀ σ0 : State F,
      lookup (fqnOf (namePfx mr.Header) group metricName) σ0.metricsRegistry
        = some (.other k) →
      ∃ c, reconcile float64 accepts (fqnOf (namePfx mr.Header) group metricName) (.number text) σ0
          = .fatal c σ0 ∧ (float64 text ≠ none → c = .typeSwitch)) ∧
    ∃ c σ1, recordMetrics float64 accepts mr σ = .fatal c σ1 ∧
      lookup (fqnOf (namePfx mr.Header) group metricName) σ1.metricsRegistry
        = some (.other k) ∧
      ∀ g ∈ σ1.gauges.drop σ.gauges.length,
        g.Name ≠ fqnOf (namePfx mr.Header) group metricName := by
  constructor
  · intro σ0 h0
    cases hf : float64 text with
    | none =>
      exact ⟨_, reconcile_number_none float64 accepts σ0 hf, fun h => absurd rfl h⟩
    | some x =>
      exact ⟨_, reconcile_number_other float64 accepts σ0 hf h0, fun _ => rfl⟩
  · obtain ⟨c, σ1, hrun⟩ := runOps_fatal_of_other float64 accepts (reportOps_mem hg hm) hb
    obtain ⟨added, hgr, -⟩ := runOps_growsBy float64 accepts (reportOps mr) σ
    rw [hrun] at hgr
    replace hgr : GrowsBy added σ σ1 := hgr
    refine ⟨c, σ1, by rw [recordMetrics_eq_runOps, hrun], hgr.keeps hb, ?_⟩
    intro g hmem hname
    have hdrop : (σ1.gauges.drop σ.gauges.length).map Gauge.Name
        = (added.map Prod.fst).reverse := by
      have h3 := congrArg (List.drop σ.gauges.length) hgr.2.2
      rw [List.map_drop]
      rw [h3]
      have hlen : σ.gauges.length = (σ.gauges.map Gauge.Name).length := by simp
      rw [hlen, List.drop_left]
    have hin : g.Name ∈ (added.map Prod.fst).reverse := by
      rw [← hdrop]
      exact List.mem_map_of_mem _ hmem
    obtain ⟨p, hp, hpn⟩ := List.mem_map.1 (List.mem_reverse.1 hin)
    have habs := hgr.2.1 p hp
    rw [hpn, hname, hb] at habs
    exact Option.noConfusion habs

/-- Witness of C5: the name `J_1_C_g_m` is bound to a metric that is not a
gauge and the report of scenario A arrives. -/
theorem C5_type_switch_rejection_witness :
    lookup (fqnOf (namePfx (mkHeader "J" "1" "C" "C")) "g" "m")
        [("J_1_C_g_m", Metric.other 0)] = some (.other 0) ∧
    ∃ c σ1, recordMetrics digitsFloat64 classicName
        (oneMetric (mkHeader "J" "1" "C" "C") "g" "m" (.number "5"))
        ⟨[("J_1_C_g_m", Metric.other 0)], [], [], heldAtStart⟩ = .fatal c σ1 ∧
      lookup (fqnOf (namePfx (mkHeader "J" "1" "C" "C")) "g" "m") σ1.metricsRegistry
        = some (.other 0) ∧
      ∀ g ∈ σ1.gauges.drop 0, g.Name ≠ fqnOf (namePfx (mkHeader "J" "1" "C" "C")) "g" "m" :=
  ⟨by decide,
    (C5_type_switch_rejection digitsFloat64 classicName ⟨[("J_1_C_g_m", Metric.other 0)], [], [], heldAtStart⟩
      (oneMetric (mkHeader "J" "1" "C" "C") "g" "m" (.number "5")) "g" "m" "5"
      [("m", .number "5")] 0 (List.mem_cons_self _ _) (List.mem_cons_self _ _)
      (by decide)).2⟩

/-- C6: a report none of whose metric values is a decoded number leaves the
registry and every gauge as they were (only lines for booleans are printed);
into the empty registry it produces zero entries; and a report with an empty
metrics body changes nothing at all. -/
theorem C6_non_numeric_skipped {F : Type} [Zero F] (float64 : String → Option F)
    (accepts : String → Bool)
    (held : List String) (σ : State F) (mr : MetricsReport)
    (h : ∀ group metrics metricName val, (group, metrics) ∈ mr.Metrics →
      (metricName, val) ∈ metrics → ∀ text, val ≠ JsonValue.number text) :
    (∃ out, recordMetrics float64 accepts mr σ =
      .done ⟨σ.metricsRegistry, σ.gauges, σ.stdout ++ out, σ.registered⟩) ∧
    (∃ out, recordMetrics float64 accepts mr (State.init held : State F)
      = .done ⟨[], [], out, held⟩) ∧
    recordMetrics float64 accepts ⟨mr.Header, []⟩ σ = .done σ := by
  have hops : ∀ n v, (n, v) ∈ reportOps mr → ∀ text, v ≠ JsonValue.number text := by
    intro n v hmem
    obtain ⟨g, ms, m, hg, hm, -⟩ := mem_reportOps hmem
    exact h g ms m v hg hm
  refine ⟨?_, ?_, rfl⟩
  · rw [recordMetrics_eq_runOps]
    exact runOps_no_number float64 accepts σ hops
  · rw [recordMetrics_eq_runOps]
    obtain ⟨out, ho⟩ := runOps_no_number float64 accepts (State.init held : State F) hops
    exact ⟨[] ++ out, ho⟩

/-- Witness of C6: scenario D, a report with the one boolean metric `m` of
group `g`, reconciled into the empty registry. -/
theorem C6_non_numeric_skipped_witness :
    (∀ group metrics metricName val,
      (group, metrics) ∈
        (oneMetric (mkHeader "J" "1" "C" "C") "g" "m" (.bool true)).Metrics →
      (metricName, val) ∈ metrics → ∀ text, val ≠ JsonValue.number text) ∧
    ∃ out, recordMetrics digitsFloat64 classicName
      (oneMetric (mkHeader "J" "1" "C" "C") "g" "m" (.bool true)) (State.init heldAtStart)
        = .done ⟨[], [], out, heldAtStart⟩ := by
  have hyp : ∀ group metrics metricName val,
      (group, metrics) ∈
        (oneMetric (mkHeader "J" "1" "C" "C") "g" "m" (.bool true)).Metrics →
      (metricName, val) ∈ metrics → ∀ text, val ≠ JsonValue.number text := by
    intro group metrics metricName val hg hm text hv
    simp only [oneMetric, List.mem_singleton, Prod.mk.injEq] at hg
    rw [hg.2] at hm
    simp only [List.mem_singleton, Prod.mk.injEq] at hm
    rw [hm.2] at hv
    exact JsonValue.noConfusion hv
  exact ⟨hyp, (C6_non_numeric_skipped digitsFloat64 classicName heldAtStart
    (State.init heldAtStart) _ hyp).2.1⟩

/-- C7: when `recordMetrics` completes, every name of the registry is still
bound to the metric (the same gauge handle) it was bound to before; the
registry after the call is the one before it with bindings put in front, each
of a name that was absent, that a numeric metric of the report derives, bound
to a gauge; and the gauge objects present before are still there under their
names. -/
theorem C7_monotone_growth {F : Type} [Zero F] (float64 : String → Option F)
    (accepts : String → Bool)
    (mr : MetricsReport) (σ σ1 : State F) (h : recordMetrics float64 accepts mr σ = .done σ1) :
    (∀ name m, lookup name σ.metricsRegistry = some m →
      lookup name σ1.metricsRegistry = some m) ∧
    (∃ added, σ1.metricsRegistry = added ++ σ.metricsRegistry ∧
      ∀ p ∈ added, lookup p.1 σ.metricsRegistry = none ∧ setsName mr p.1 ∧
        ∃ g, p.2 = Metric.gauge g) ∧
    ∃ fresh, σ1.gauges.map Gauge.Name = σ.gauges.map Gauge.Name ++ fresh := by
  obtain ⟨added, hgr, hp⟩ := runOps_growsBy float64 accepts (reportOps mr) σ
  rw [← recordMetrics_eq_runOps, h] at hgr
  replace hgr : GrowsBy added σ σ1 := hgr
  refine ⟨fun name m hl => hgr.keeps hl, ⟨added, hgr.1, ?_⟩, ⟨_, hgr.2.2⟩⟩
  intro p hmem
  obtain ⟨⟨text, ht⟩, hgauge⟩ := hp p hmem
  obtain ⟨g, ms, m, h1, h2, h3⟩ := mem_reportOps ht
  exact ⟨hgr.2.1 p hmem, ⟨g, ms, m, text, h1, h2, h3⟩, hgauge⟩

/-- Witness of C7: the registry holds `J_1_C_g_m`; a report with the metrics
`m` and `n` of group `g` keeps that binding and adds `J_1_C_g_n`. -/
theorem C7_monotone_growth_witness :
    recordMetrics digitsFloat64 classicName
        ⟨mkHeader "J" "1" "C" "C", [("g", [("m", .number "7"), ("n", .number "8")])]⟩
        ⟨[("J_1_C_g_m", .gauge 0)], [⟨"J_1_C_g_m", 5⟩], [], "J_1_C_g_m" :: heldAtStart⟩
      = .done ⟨[("J_1_C_g_n", .gauge 1), ("J_1_C_g_m", .gauge 0)],
          [⟨"J_1_C_g_m", 7⟩, ⟨"J_1_C_g_n", 8⟩], [],
          "J_1_C_g_n" :: "J_1_C_g_m" :: heldAtStart⟩ ∧
    lookup "J_1_C_g_m" [("J_1_C_g_n", Metric.gauge 1), ("J_1_C_g_m", Metric.gauge 0)]
      = some (.gauge 0) :=
  ⟨by rfl,
    (C7_monotone_growth digitsFloat64 classicName
      ⟨mkHeader "J" "1" "C" "C", [("g", [("m", .number "7"), ("n", .number "8")])]⟩
      ⟨[("J_1_C_g_m", .gauge 0)], [⟨"J_1_C_g_m", 5⟩], [], "J_1_C_g_m" :: heldAtStart⟩
      ⟨[("J_1_C_g_n", .gauge 1), ("J_1_C_g_m", .gauge 0)],
          [⟨"J_1_C_g_m", 7⟩, ⟨"J_1_C_g_n", 8⟩], [],
          "J_1_C_g_n" :: "J_1_C_g_m" :: heldAtStart⟩ (by rfl)).1 "J_1_C_g_m" (.gauge 0)
      (by decide)⟩


/-- C3, refuted as stated: a report whose one metric is the number `1e999`
ends the process with a conversion error and leaves the registry empty; and a
report whose one metric derives `go_memstats_alloc_bytes_total`, a name the
default registerer holds from the start, ends the process in gauge
construction, under either name grammar, with the registry empty. -/
theorem C3_fatal_runs :
    ¬ RegistersOnce digitsFloat64 classicName heldAtStart
      (mkHeader "J" "1" "C" "C") "g" "m" ["1e999"] ∧
    ¬ RegistersOnce digitsFloat64 classicName heldAtStart
      (mkHeader "go" "memstats" "alloc" "alloc") "bytes" "total" ["5"] ∧
    ¬ RegistersOnce digitsFloat64 utf8Name heldAtStart
      (mkHeader "go" "memstats" "alloc" "alloc") "bytes" "total" ["5"] ∧
    recordMetrics digitsFloat64 classicName
      (oneMetric (mkHeader "J" "1" "C" "C") "g" "m" (.number "1e999")) (State.init heldAtStart)
      = .fatal (.conversion "1e999") (State.init heldAtStart) ∧
    recordMetrics digitsFloat64 classicName
      (oneMetric (mkHeader "go" "memstats" "alloc" "alloc") "bytes" "total" (.number "5"))
      (State.init heldAtStart)
      = .fatal (.registration "go_memstats_alloc_bytes_total") (State.init heldAtStart) := by
  refine ⟨?_, ?_, ?_, by rfl, by rfl⟩
  · rintro ⟨σ, h, -⟩
    have e : recordAll digitsFloat64 classicName
        (["1e999"].map fun t => oneMetric (mkHeader "J" "1" "C" "C") "g" "m" (.number t))
        (State.init heldAtStart)
        = .fatal (.conversion "1e999") (State.init heldAtStart) := by rfl
    rw [e] at h
    exact Outcome.noConfusion h
  · rintro ⟨σ, h, -⟩
    have e : recordAll digitsFloat64 classicName
        (["5"].map fun t =>
          oneMetric (mkHeader "go" "memstats" "alloc" "alloc") "bytes" "total" (.number t))
        (State.init heldAtStart)
        = .fatal (.registration "go_memstats_alloc_bytes_total") (State.init heldAtStart) := by
      rfl
    rw [e] at h
    exact Outcome.noConfusion h
  · rintro ⟨σ, h, -⟩
    have e : recordAll digitsFloat64 utf8Name
        (["5"].map fun t =>
          oneMetric (mkHeader "go" "memstats" "alloc" "alloc") "bytes" "total" (.number t))
        (State.init heldAtStart)
        = .fatal (.registration "go_memstats_alloc_bytes_total") (State.init heldAtStart) := by
      rfl
    rw [e] at h
    exact Outcome.noConfusion h

/-- C3, amended: reconciling, from the empty registry, k ≥ 1 reports with one
header and the one metric (G, M), whose numbers all convert and whose derived
name the registerer accepts and does not hold yet, completes with exactly one
registry entry, keyed by the derived name and bound to the gauge handle created
by the first report, with a single gauge object ever constructed and the name
registered once, and the value read under the name is the one converted from
the last report. -/
theorem C3_idempotent_registration {F : Type} [Zero F] (float64 : String → Option F)
    (accepts : String → Bool) (held : List String)
    (h : Header) (G M : String) (txts : List String) (hne : txts ≠ [])
    (hconv : ∀ t ∈ txts, (float64 t).isSome = true)
    (hacc : accepts (fqnOf (namePfx h) G M) = true)
    (hfree : fqnOf (namePfx h) G M ∉ held) :
    ∃ σ, recordAll float64 accepts (txts.map fun t => oneMetric h G M (.number t))
        (State.init held : State F) = .done σ ∧
      σ.metricsRegistry = [(fqnOf (namePfx h) G M, .gauge 0)] ∧
      σ.metricsRegistry.length = 1 ∧ σ.gauges.length = 1 ∧
      σ.registered = fqnOf (namePfx h) G M :: held ∧
      valueOf σ (fqnOf (namePfx h) G M) = float64 (txts.getLast hne) := by
  rw [recordAll_eq_runOps, ops_of_repeated]
  cases txts with
  | nil => exact absurd rfl hne
  | cons t rest =>
    obtain ⟨x, hx⟩ := Option.isSome_iff_exists.1 (hconv t (List.mem_cons_self _ _))
    obtain ⟨w, hrun, hnil, hlast⟩ := runOps_rewrite float64 accepts (fqnOf (namePfx h) G M) rest
      (fun t1 h1 => hconv t1 (List.mem_cons_of_mem _ h1)) x [] (fqnOf (namePfx h) G M :: held)
    have hl : lookup (fqnOf (namePfx h) G M) (State.init held : State F).metricsRegistry
        = none := rfl
    refine ⟨⟨[(fqnOf (namePfx h) G M, .gauge 0)], [⟨fqnOf (namePfx h) G M, w⟩], [],
      fqnOf (namePfx h) G M :: held⟩, ?_, rfl, rfl, rfl, rfl, ?_⟩
    · simp only [List.map_cons, runOps,
        reconcile_number_absent float64 accepts _ hx hl hacc hfree]
      exact hrun
    · have hv : valueOf (⟨[(fqnOf (namePfx h) G M, .gauge 0)],
          [⟨fqnOf (namePfx h) G M, w⟩], [], fqnOf (namePfx h) G M :: held⟩ : State F)
          (fqnOf (namePfx h) G M) = some w := by
        simp [valueOf, lookup]
      rw [hv]
      by_cases hr : rest = []
      · subst hr
        rw [hnil rfl]
        exact hx.symm
      · rw [List.getLast_cons hr]
        exact (hlast hr).symm

/-- Witness of C3 as amended: scenario C, the values 5 then 7 under the
identity of scenario A; the registry has size 1 and the gauge reads 7. -/
theorem C3_idempotent_registration_witness :
    (∀ t ∈ ["5", "7"], (digitsFloat64 t).isSome = true) ∧
    classicName (fqnOf (namePfx (mkHeader "J" "1" "C" "C")) "g" "m") = true ∧
    fqnOf (namePfx (mkHeader "J" "1" "C" "C")) "g" "m" ∉ heldAtStart ∧
    (∃ σ, recordAll digitsFloat64 classicName
        (["5", "7"].map fun t => oneMetric (mkHeader "J" "1" "C" "C") "g" "m" (.number t))
        (State.init heldAtStart) = .done σ ∧
      σ.metricsRegistry = [(fqnOf (namePfx (mkHeader "J" "1" "C" "C")) "g" "m", .gauge 0)] ∧
      σ.metricsRegistry.length = 1 ∧ σ.gauges.length = 1 ∧
      σ.registered = fqnOf (namePfx (mkHeader "J" "1" "C" "C")) "g" "m" :: heldAtStart ∧
      valueOf σ (fqnOf (namePfx (mkHeader "J" "1" "C" "C")) "g" "m")
        = digitsFloat64 (["5", "7"].getLast (List.cons_ne_nil _ _))) ∧
    digitsFloat64 (["5", "7"].getLast (List.cons_ne_nil _ _)) = some 7 :=
  ⟨by decide, by decide, by decide,
    C3_idempotent_registration digitsFloat64 classicName heldAtStart
      (mkHeader "J" "1" "C" "C") "g" "m" ["5", "7"]
      (List.cons_ne_nil _ _) (by decide) (by decide) (by decide),
    by decide⟩

/-! ## Two reports in two orders -/

section Visit

theorem forall₂_mem_left {α β : Type} {R : α → β → Prop} {l1 : List α} {l2 : List β}
    (h : List.Forall₂ R l1 l2) {a : α} (ha : a ∈ l1) : ∃ b ∈ l2, R a b := by
  induction h with
  | nil => exact absurd ha (List.not_mem_nil a)
  | cons hab _ ih =>
    rcases List.mem_cons.1 ha with rfl | ht
    · exact ⟨_, List.mem_cons_self _ _, hab⟩
    · obtain ⟨b, hb, hr⟩ := ih ht
      exact ⟨b, List.mem_cons_of_mem _ hb, hr⟩

theorem forall₂_mem_right {α β : Type} {R : α → β → Prop} {l1 : List α} {l2 : List β}
    (h : List.Forall₂ R l1 l2) {b : β} (hb : b ∈ l2) : ∃ a ∈ l1, R a b := by
  induction h with
  | nil => exact absurd hb (List.not_mem_nil b)
  | cons hab _ ih =>
    rcases List.mem_cons.1 hb with rfl | ht
    · exact ⟨_, List.mem_cons_self _ _, hab⟩
    · obtain ⟨a, ha, hr⟩ := ih ht
      exact ⟨a, List.mem_cons_of_mem _ ha, hr⟩

theorem SameMap.writes_same {r r1 : MetricsReport} (h : SameMap r r1) (n text : String) :
    writes r n text ↔ writes r1 n text := by
  obtain ⟨hh, gs, hperm, hall⟩ := h
  constructor
  · rintro ⟨g, ms, m, hg, hm, hn⟩
    obtain ⟨⟨g1, ms1⟩, hg1, hname, hms⟩ := forall₂_mem_left hall (hperm.mem_iff.1 hg)
    simp only at hname hms
    subst hname
    exact ⟨g, ms1, m, hg1, hms.mem_iff.1 hm, by rw [← hh]; exact hn⟩
  · rintro ⟨g, ms, m, hg, hm, hn⟩
    obtain ⟨⟨g0, ms0⟩, hg0, hname, hms⟩ := forall₂_mem_right hall hg
    simp only at hname hms
    subst hname
    exact ⟨g0, ms0, m, hperm.mem_iff.2 hg0, hms.mem_iff.2 hm, by rw [hh]; exact hn⟩

theorem writes_iff (mr : MetricsReport) (n text : String) :
    writes mr n text ↔ (n, JsonValue.number text) ∈ reportOps mr := by
  constructor
  · rintro ⟨g, ms, m, hg, hm, rfl⟩
    exact reportOps_mem hg hm
  · intro hmem
    obtain ⟨g, ms, m, hg, hm, hn⟩ := mem_reportOps hmem
    exact ⟨g, ms, m, hg, hm, hn⟩

theorem setsName_iff_writes (mr : MetricsReport) (n : String) :
    setsName mr n ↔ ∃ text, writes mr n text := by
  constructor
  · rintro ⟨g, ms, m, text, hg, hm, hn⟩
    exact ⟨text, g, ms, m, hg, hm, hn⟩
  · rintro ⟨text, g, ms, m, hg, hm, hn⟩
    exact ⟨g, ms, m, text, hg, hm, hn⟩

variable {F : Type}

theorem lastWrite_some (float64 : String → Option F) {ops : List (String × JsonValue)}
    {n : String} {x : F} (h : lastWrite float64 ops n = some x) :
    ∃ text, (n, JsonValue.number text) ∈ ops ∧ float64 text = some x := by
  induction ops with
  | nil => exact Option.noConfusion h
  | cons q t ih =>
    obtain ⟨k, v⟩ := q
    simp only [lastWrite] at h
    cases hlt : lastWrite float64 t n with
    | some y =>
      rw [hlt] at h
      have hy : y = x := Option.some.inj h
      subst hy
      obtain ⟨text, hm, hf⟩ := ih hlt
      exact ⟨text, List.mem_cons_of_mem _ hm, hf⟩
    | none =>
      rw [hlt] at h
      cases v with
      | number text =>
        by_cases hk : k = n
        · subst hk
          simp only [writeOf, if_pos] at h
          exact ⟨text, List.mem_cons_self _ _, h⟩
        · simp only [writeOf, if_neg hk] at h
          exact Option.noConfusion h
      | bool b => exact Option.noConfusion h
      | str s => exact Option.noConfusion h
      | null => exact Option.noConfusion h
      | array => exact Option.noConfusion h
      | object => exact Option.noConfusion h

variable [Zero F] (float64 : String → Option F) (accepts : String → Bool)

theorem valueOf_two_runs {opsA opsB : List (String × JsonValue)} {σ σ1 σ2 : State F}
    (hwf : WF σ) (ha : runOps float64 accepts opsA σ = .done σ1)
    (hb : runOps float64 accepts opsB σ1 = .done σ2) (n : String) :
    valueOf σ2 n = match lastWrite float64 opsB n with
      | some x => some x
      | none => match lastWrite float64 opsA n with
        | some x => some x
        | none => valueOf σ n := by
  obtain ⟨w1, v1, -⟩ := runOps_view float64 accepts hwf ha
  obtain ⟨-, v2, -⟩ := runOps_view float64 accepts w1 hb
  rw [v2 n, v1 n]

theorem bound_two_runs {opsA opsB : List (String × JsonValue)} {σ σ1 σ2 : State F}
    (hwf : WF σ) (ha : runOps float64 accepts opsA σ = .done σ1)
    (hb : runOps float64 accepts opsB σ1 = .done σ2) (n : String) :
    n ∈ names σ2 ↔ n ∈ names σ ∨ (∃ text, (n, JsonValue.number text) ∈ opsA) ∨
      ∃ text, (n, JsonValue.number text) ∈ opsB := by
  obtain ⟨w1, -, b1⟩ := runOps_view float64 accepts hwf ha
  obtain ⟨-, -, b2⟩ := runOps_view float64 accepts w1 hb
  have hA : (lastWrite float64 opsA n).isSome = true ↔
      ∃ text, (n, JsonValue.number text) ∈ opsA := by
    constructor
    · intro h
      obtain ⟨x, hx⟩ := Option.isSome_iff_exists.1 h
      obtain ⟨text, hm, -⟩ := lastWrite_some float64 hx
      exact ⟨text, hm⟩
    · rintro ⟨text, hm⟩
      obtain ⟨x, hx⟩ := lastWrite_of_done float64 accepts ha hm
      rw [hx]
      rfl
  have hB : (lastWrite float64 opsB n).isSome = true ↔
      ∃ text, (n, JsonValue.number text) ∈ opsB := by
    constructor
    · intro h
      obtain ⟨x, hx⟩ := Option.isSome_iff_exists.1 h
      obtain ⟨text, hm, -⟩ := lastWrite_some float64 hx
      exact ⟨text, hm⟩
    · rintro ⟨text, hm⟩
      obtain ⟨x, hx⟩ := lastWrite_of_done float64 accepts hb hm
      rw [hx]
      rfl
  unfold names
  rw [← lookup_isSome_iff, ← lookup_isSome_iff, b2 n, b1 n, Bool.or_eq_true, Bool.or_eq_true,
    hA, hB, or_assoc]

theorem valueOf_agree {opsA opsB : List (String × JsonValue)} {σ σ1 σ2 : State F}
    (hwf : WF σ) (ha : runOps float64 accepts opsA σ = .done σ1)
    (hb : runOps float64 accepts opsB σ1 = .done σ2) {n t0 : String}
    (h0 : (n, JsonValue.number t0) ∈ opsA ∨ (n, JsonValue.number t0) ∈ opsB)
    (hag : ∀ text, ((n, JsonValue.number text) ∈ opsA ∨ (n, JsonValue.number text) ∈ opsB) →
      float64 text = float64 t0) :
    valueOf σ2 n = float64 t0 := by
  rw [valueOf_two_runs float64 accepts hwf ha hb n]
  cases hB : lastWrite float64 opsB n with
  | some x =>
    obtain ⟨text, hm, hf⟩ := lastWrite_some float64 hB
    rw [← hag text (Or.inr hm), hf]
  | none =>
    cases hA : lastWrite float64 opsA n with
    | some x =>
      obtain ⟨text, hm, hf⟩ := lastWrite_some float64 hA
      rw [← hag text (Or.inl hm), hf]
    | none =>
      exfalso
      rcases h0 with h0 | h0
      · obtain ⟨x, hx⟩ := lastWrite_of_done float64 accepts ha h0
        rw [hA] at hx
        exact Option.noConfusion hx
      · obtain ⟨x, hx⟩ := lastWrite_of_done float64 accepts hb h0
        rw [hB] at hx
        exact Option.noConfusion hx

theorem valueOf_untouched {opsA opsB : List (String × JsonValue)} {σ σ1 σ2 : State F}
    (hwf : WF σ) (ha : runOps float64 accepts opsA σ = .done σ1)
    (hb : runOps float64 accepts opsB σ1 = .done σ2) {n : String}
    (hA : ¬ ∃ text, (n, JsonValue.number text) ∈ opsA)
    (hB : ¬ ∃ text, (n, JsonValue.number text) ∈ opsB) :
    valueOf σ2 n = valueOf σ n := by
  rw [valueOf_two_runs float64 accepts hwf ha hb n, lastWrite_none_of_not_mem float64 hA,
    lastWrite_none_of_not_mem float64 hB]

end Visit

/-- C8, refuted as stated: from the empty registry, the report setting the
metric (g, m) to 5 and the report setting it to 7, under one header, leave the
gauge `J_1_C_g_m` at 7 in one order and at 5 in the other. -/
theorem C8_order_sensitive :
    ¬ OrderInsensitive digitsFloat64 classicName (State.init heldAtStart : State Int)
      (oneMetric (mkHeader "J" "1" "C" "C") "g" "m" (.number "5"))
      (oneMetric (mkHeader "J" "1" "C" "C") "g" "m" (.number "7")) := by
  intro h
  have h1 := (h ⟨[("J_1_C_g_m", .gauge 0)], [⟨"J_1_C_g_m", 7⟩], [], "J_1_C_g_m" :: heldAtStart⟩
    ⟨[("J_1_C_g_m", .gauge 0)], [⟨"J_1_C_g_m", 5⟩], [], "J_1_C_g_m" :: heldAtStart⟩
    (by rfl) (by rfl)).2 "J_1_C_g_m"
  revert h1
  decide

/-- C8, amended: take a registry in which every gauge binding points at an
allocated gauge and no gauge is bound under two names (as in every registry
grown from the empty one), two reports r1 and r2, and for the second run any
other visiting order r1b of r1 and r2b of r2.  When reconciling r1 then r2 and
reconciling r2b then r1b both complete, they leave the same set of names, and
the same value under every name for which all numeric metrics of the two
reports that derive it convert to the same value (in particular every name
that at most one numeric metric derives); a name that the report reconciled
second sets reads a value written by that report. -/
theorem C8_order_of_reports {F : Type} [Zero F] (float64 : String → Option F)
    (accepts : String → Bool) (σ : State F) (hwf : WF σ)
    (r1 r2 r1b r2b : MetricsReport) (hs1 : SameMap r1 r1b) (hs2 : SameMap r2 r2b)
    (σ12 σ21 : State F)
    (h12 : recordAll float64 accepts [r1, r2] σ = .done σ12)
    (h21 : recordAll float64 accepts [r2b, r1b] σ = .done σ21) :
    (∀ n, n ∈ names σ12 ↔ n ∈ names σ21) ∧
    (∀ n, (∀ t1 t2, (writes r1 n t1 ∨ writes r2 n t1) → (writes r1 n t2 ∨ writes r2 n t2) →
        float64 t1 = float64 t2) →
      valueOf σ12 n = valueOf σ21 n) ∧
    (∀ n, setsName r2 n → ∃ t, writes r2 n t ∧ valueOf σ12 n = float64 t) ∧
    (∀ n, setsName r1 n → ∃ t, writes r1 n t ∧ valueOf σ21 n = float64 t) := by
  obtain ⟨σ1, ha1, ha2⟩ := recordAll_pair float64 accepts h12
  obtain ⟨σ2, hb2, hb1⟩ := recordAll_pair float64 accepts h21
  have m1 : ∀ n t, (n, JsonValue.number t) ∈ reportOps r1 ↔ writes r1 n t :=
    fun n t => (writes_iff r1 n t).symm
  have m2 : ∀ n t, (n, JsonValue.number t) ∈ reportOps r2 ↔ writes r2 n t :=
    fun n t => (writes_iff r2 n t).symm
  have m1b : ∀ n t, (n, JsonValue.number t) ∈ reportOps r1b ↔ writes r1 n t :=
    fun n t => ((writes_iff r1b n t).symm).trans (hs1.writes_same n t).symm
  have m2b : ∀ n t, (n, JsonValue.number t) ∈ reportOps r2b ↔ writes r2 n t :=
    fun n t => ((writes_iff r2b n t).symm).trans (hs2.writes_same n t).symm
  refine ⟨?_, ?_, ?_, ?_⟩
  · intro n
    rw [bound_two_runs float64 accepts hwf ha1 ha2 n,
      bound_two_runs float64 accepts hwf hb2 hb1 n]
    simp only [m1, m2, m1b, m2b]
    constructor
    · rintro (h | h | h)
      · exact Or.inl h
      · exact Or.inr (Or.inr h)
      · exact Or.inr (Or.inl h)
    · rintro (h | h | h)
      · exact Or.inl h
      · exact Or.inr (Or.inr h)
      · exact Or.inr (Or.inl h)
  · intro n hag
    by_cases hex : ∃ t0, writes r1 n t0 ∨ writes r2 n t0
    · obtain ⟨t0, h0⟩ := hex
      have e12 : valueOf σ12 n = float64 t0 := by
        apply valueOf_agree float64 accepts hwf ha1 ha2
        · exact h0.imp (m1 n t0).2 (m2 n t0).2
        · intro text ht
          exact hag text t0 (ht.imp (m1 n text).1 (m2 n text).1) h0
      have e21 : valueOf σ21 n = float64 t0 := by
        apply valueOf_agree float64 accepts hwf hb2 hb1
        · exact h0.symm.imp (m2b n t0).2 (m1b n t0).2
        · intro text ht
          exact hag text t0 (ht.symm.imp (m1b n text).1 (m2b n text).1) h0
      rw [e12, e21]
    · have n1 : ¬ ∃ text, (n, JsonValue.number text) ∈ reportOps r1 :=
        fun ⟨t, ht⟩ => hex ⟨t, Or.inl ((m1 n t).1 ht)⟩
      have n2 : ¬ ∃ text, (n, JsonValue.number text) ∈ reportOps r2 :=
        fun ⟨t, ht⟩ => hex ⟨t, Or.inr ((m2 n t).1 ht)⟩
      have n1b : ¬ ∃ text, (n, JsonValue.number text) ∈ reportOps r1b :=
        fun ⟨t, ht⟩ => hex ⟨t, Or.inl ((m1b n t).1 ht)⟩
      have n2b : ¬ ∃ text, (n, JsonValue.number text) ∈ reportOps r2b :=
        fun ⟨t, ht⟩ => hex ⟨t, Or.inr ((m2b n t).1 ht)⟩
      rw [valueOf_untouched float64 accepts hwf ha1 ha2 n1 n2,
        valueOf_untouched float64 accepts hwf hb2 hb1 n2b n1b]
  · intro n hs
    obtain ⟨t0, ht0⟩ := (setsName_iff_writes r2 n).1 hs
    obtain ⟨x, hx⟩ := lastWrite_of_done float64 accepts ha2 ((m2 n t0).2 ht0)
    obtain ⟨t, hm, hf⟩ := lastWrite_some float64 hx
    refine ⟨t, (m2 n t).1 hm, ?_⟩
    rw [valueOf_two_runs float64 accepts hwf ha1 ha2 n, hx, hf]
  · intro n hs
    obtain ⟨t0, ht0⟩ := (setsName_iff_writes r1 n).1 hs
    obtain ⟨x, hx⟩ := lastWrite_of_done float64 accepts hb1 ((m1b n t0).2 ht0)
    obtain ⟨t, hm, hf⟩ := lastWrite_some float64 hx
    refine ⟨t, (m1b n t).1 hm, ?_⟩
    rw [valueOf_two_runs float64 accepts hwf hb2 hb1 n, hx, hf]

/-- Witness of C8 as amended: from the empty registry, a report setting
(g, m) to 5 and (g, n) to 6, visited as m, n in the first run and as n, m in
the second, and a report setting (g, m) to 7. -/
theorem C8_order_of_reports_witness :
    WF (State.init heldAtStart : State Int) ∧
    SameMap ⟨mkHeader "J" "1" "C" "C", [("g", [("m", .number "5"), ("n", .number "6")])]⟩
      ⟨mkHeader "J" "1" "C" "C", [("g", [("n", .number "6"), ("m", .number "5")])]⟩ ∧
    recordAll digitsFloat64 classicName
      [⟨mkHeader "J" "1" "C" "C", [("g", [("m", .number "5"), ("n", .number "6")])]⟩,
        oneMetric (mkHeader "J" "1" "C" "C") "g" "m" (.number "7")] (State.init heldAtStart)
      = .done ⟨[("J_1_C_g_n", .gauge 1), ("J_1_C_g_m", .gauge 0)],
          [⟨"J_1_C_g_m", 7⟩, ⟨"J_1_C_g_n", 6⟩], [],
          "J_1_C_g_n" :: "J_1_C_g_m" :: heldAtStart⟩ ∧
    recordAll digitsFloat64 classicName
      [oneMetric (mkHeader "J" "1" "C" "C") "g" "m" (.number "7"),
        ⟨mkHeader "J" "1" "C" "C", [("g", [("n", .number "6"), ("m", .number "5")])]⟩]
      (State.init heldAtStart)
      = .done ⟨[("J_1_C_g_n", .gauge 1), ("J_1_C_g_m", .gauge 0)],
          [⟨"J_1_C_g_m", 5⟩, ⟨"J_1_C_g_n", 6⟩], [],
          "J_1_C_g_n" :: "J_1_C_g_m" :: heldAtStart⟩ ∧
    ∀ n, n ∈ names (⟨[("J_1_C_g_n", .gauge 1), ("J_1_C_g_m", .gauge 0)],
          [⟨"J_1_C_g_m", 7⟩, ⟨"J_1_C_g_n", 6⟩], [],
          "J_1_C_g_n" :: "J_1_C_g_m" :: heldAtStart⟩ : State Int) ↔
        n ∈ names (⟨[("J_1_C_g_n", .gauge 1), ("J_1_C_g_m", .gauge 0)],
          [⟨"J_1_C_g_m", 5⟩, ⟨"J_1_C_g_n", 6⟩], [],
          "J_1_C_g_n" :: "J_1_C_g_m" :: heldAtStart⟩ : State Int) :=
  ⟨WF_init heldAtStart,
    ⟨rfl, _, List.Perm.refl _,
      List.Forall₂.cons ⟨rfl, List.Perm.swap _ _ _⟩ List.Forall₂.nil⟩,
    by rfl, by rfl,
    (C8_order_of_reports digitsFloat64 classicName (State.init heldAtStart)
      (WF_init heldAtStart)
      ⟨mkHeader "J" "1" "C" "C", [("g", [("m", .number "5"), ("n", .number "6")])]⟩
      (oneMetric (mkHeader "J" "1" "C" "C") "g" "m" (.number "7"))
      ⟨mkHeader "J" "1" "C" "C", [("g", [("n", .number "6"), ("m", .number "5")])]⟩
      (oneMetric (mkHeader "J" "1" "C" "C") "g" "m" (.number "7"))
      ⟨rfl, _, List.Perm.refl _,
        List.Forall₂.cons ⟨rfl, List.Perm.swap _ _ _⟩ List.Forall₂.nil⟩
      ⟨rfl, _, List.Perm.refl _, List.Forall₂.cons ⟨rfl, List.Perm.refl _⟩ List.Forall₂.nil⟩
      _ _ (by rfl) (by rfl)).1⟩

/-- Why the amended C8 asks that no gauge be bound under two names: with
`J_1_C_g_m` and `J_1_C_g_n` bound to one gauge object, a report setting (g, m)
to 5 and a report setting (g, n) to 7 leave `J_1_C_g_m`, which only the first
report sets, at 7 in one order and at 5 in the other. -/
theorem order_needs_distinct_gauges :
    valueOf (recordAll digitsFloat64 classicName
      [oneMetric (mkHeader "J" "1" "C" "C") "g" "m" (.number "5"),
        oneMetric (mkHeader "J" "1" "C" "C") "g" "n" (.number "7")]
      ⟨[("J_1_C_g_m", .gauge 0), ("J_1_C_g_n", .gauge 0)], [⟨"J_1_C_g_m", 0⟩], [],
        heldAtStart⟩).state "J_1_C_g_m" = some 7 ∧
    valueOf (recordAll digitsFloat64 classicName
      [oneMetric (mkHeader "J" "1" "C" "C") "g" "n" (.number "7"),
        oneMetric (mkHeader "J" "1" "C" "C") "g" "m" (.number "5")]
      ⟨[("J_1_C_g_m", .gauge 0), ("J_1_C_g_n", .gauge 0)], [⟨"J_1_C_g_m", 0⟩], [],
        heldAtStart⟩).state "J_1_C_g_m" = some 5 := by
  constructor <;> decide

/-- Why the amended C8 asks that the numbers written under a name agree: the
metrics `a.b` and `a_b` of one group derive the same name, so a report setting
them to 5 and 6, reconciled with an empty report, leaves `J_1_C_g_a_b` at 6
when visited as a.b, a_b and at 5 when visited as a_b, a.b. -/
theorem order_needs_agreeing_writes :
    valueOf (recordAll digitsFloat64 classicName
      [⟨mkHeader "J" "1" "C" "C", [("g", [("a.b", .number "5"), ("a_b", .number "6")])]⟩,
        ⟨mkHeader "J" "1" "C" "C", []⟩]
      (State.init heldAtStart)).state "J_1_C_g_a_b" = some 6 ∧
    valueOf (recordAll digitsFloat64 classicName
      [⟨mkHeader "J" "1" "C" "C", []⟩,
        ⟨mkHeader "J" "1" "C" "C", [("g", [("a_b", .number "6"), ("a.b", .number "5")])]⟩]
      (State.init heldAtStart)).state "J_1_C_g_a_b" = some 5 := by
  constructor <;> decide

end SamzaMetricsCollector
